import Mathlib

/-!
# Verification of the Kafka-to-object-store bronze-layer batch ingestor

Shallow embedding of `src/consumer/kafka-to-minio.py`: configuration
validation, bucket-existence startup logic, the consume-append-flush loop,
object-key construction from the UTC flush time, and a model of the Python
`json` library (`json.dumps` with default options / `json.loads`) sufficient
to state and prove the serialization round-trip properties of the spec.

Machine integers do not occur (Python integers are unbounded); text is
modelled as `List Char` (and `String` for object keys / messages).
-/

namespace Ingest

/-! ## JSON values

Model of the JSON values handled by the script.  Python `json.loads`
produces `None`, `bool`, `int`, `float`, `str`, `list`, `dict`.  Floating
point numbers are outside the model (no claim depends on them); object
member lists are in Python-dict insertion order. -/

inductive Json where
  | null : Json
  | bool (b : Bool) : Json
  | num (n : Int) : Json
  | str (s : List Char) : Json
  | arr (elems : List Json) : Json
  | obj (members : List (List Char × Json)) : Json

/-! ## Decimal rendering of integers (`int.__repr__`, used by `json.dumps`) -/

/-- `'0'..'9'` for `0..9`. -/
def digitChar (n : Nat) : Char := Char.ofNat (48 + n)

/-- Decimal digits of a natural number, most significant first (fuel-indexed
so that it is structurally recursive and kernel-reducible). -/
def natDigitsF : Nat → Nat → List Char
  | 0, _ => []
  | fuel + 1, n =>
    if n < 10 then [digitChar n]
    else natDigitsF fuel (n / 10) ++ [digitChar (n % 10)]

/-- Decimal digits of a natural number, most significant first. -/
def natDigits (n : Nat) : List Char := natDigitsF (n + 1) n

/-- Python `repr` of an `int`: optional minus sign followed by the decimal
digits. -/
def intChars (n : Int) : List Char :=
  if n < 0 then '-' :: natDigits (-n).toNat else natDigits n.toNat

/-! ## String escaping (`json.encoder`, `ensure_ascii=True` default)

`json.dumps` escapes `"` and `\` and the five control characters with short
escapes `\b \t \n \f \r`, renders the other characters in `0x20..0x7e`
literally, and renders everything else as `\uXXXX` (lower-case hex), using a
surrogate pair for code points above `0xFFFF`. -/

/-- Lower-case hex digit for `0..15`. -/
def hexDigitChar (n : Nat) : Char :=
  if n < 10 then Char.ofNat (48 + n) else Char.ofNat (87 + n)

/-- `\uXXXX` escape for a code unit below `0x10000`. -/
def uEscape (n : Nat) : List Char :=
  ['\\', 'u', hexDigitChar (n / 4096 % 16), hexDigitChar (n / 256 % 16),
   hexDigitChar (n / 16 % 16), hexDigitChar (n % 16)]

/-- Encoding of one character inside a JSON string literal
(`ESCAPE_DCT` / `ESCAPE_ASCII` of `json.encoder`). -/
def encChar (c : Char) : List Char :=
  if c = '"' then ['\\', '"']
  else if c = '\\' then ['\\', '\\']
  else if c = '\x08' then ['\\', 'b']
  else if c = '\x09' then ['\\', 't']
  else if c = '\x0a' then ['\\', 'n']
  else if c = '\x0c' then ['\\', 'f']
  else if c = '\x0d' then ['\\', 'r']
  else if c.toNat < 32 ∨ 126 < c.toNat then
    if c.toNat < 65536 then uEscape c.toNat
    else
      uEscape (55296 + (c.toNat - 65536) / 1024) ++
      uEscape (56320 + (c.toNat - 65536) % 1024)
  else [c]

/-- Encoding of the characters of a JSON string literal body. -/
def encChars : List Char → List Char
  | [] => []
  | c :: cs => encChar c ++ encChars cs

/-- A complete JSON string literal: `"` body `"`. -/
def encStr (s : List Char) : List Char := '"' :: (encChars s ++ ['"'])

/-- `", ".join` of the default item separator of `json.dumps`. -/
def joinComma : List (List Char) → List Char
  | [] => []
  | [x] => x
  | x :: y :: xs => x ++ ',' :: ' ' :: joinComma (y :: xs)

mutual
/-- Model of `json.dumps` with default arguments (separators `", "` and
`": "`, `ensure_ascii=True`), restricted to the value domain of `Json`. -/
def dumps : Json → List Char
  | .null => 'n' :: ['u', 'l', 'l']
  | .bool true => 't' :: ['r', 'u', 'e']
  | .bool false => 'f' :: ['a', 'l', 's', 'e']
  | .num n => intChars n
  | .str s => encStr s
  | .arr xs => '[' :: (joinComma (dumpsList xs) ++ [']'])
  | .obj kvs => '{' :: (joinComma (dumpsKVs kvs) ++ ['}'])

/-- `json.dumps` of each element of a list. -/
def dumpsList : List Json → List (List Char)
  | [] => []
  | x :: xs => dumps x :: dumpsList xs

/-- `json.dumps` of each `key: value` member of an object. -/
def dumpsKVs : List (List Char × Json) → List (List Char)
  | [] => []
  | (k, v) :: kvs => (encStr k ++ ':' :: ' ' :: dumps v) :: dumpsKVs kvs
end

/-! ## Model of `json.loads`

Recursive-descent parser following the CPython `json.scanner` /
`json.decoder` logic (strict mode): whitespace is `' '`, `'\t'`, `'\n'`,
`'\r'`; strings reject raw control characters and unknown escapes; a
surrogate `\uXXXX` pair is combined into one code point (lone surrogates,
which CPython keeps as unpaired surrogate code units, are unrepresentable
in `Char` and fall outside the model, as do floats, `NaN` and `Infinity`).
The value parser is fuel-indexed; `loads` supplies fuel that is sufficient
for every output of `dumps` (proved below). -/

/-- JSON whitespace skipping (`_w` of `json.decoder`). -/
def skipWs : List Char → List Char
  | c :: cs =>
    if c = ' ' ∨ c = '\t' ∨ c = '\n' ∨ c = '\r' then skipWs cs else c :: cs
  | [] => []

/-- Value of one hex digit (`0-9a-fA-F`), as accepted in `\uXXXX`. -/
def hexVal (c : Char) : Option Nat :=
  if 48 ≤ c.toNat ∧ c.toNat ≤ 57 then some (c.toNat - 48)
  else if 97 ≤ c.toNat ∧ c.toNat ≤ 102 then some (c.toNat - 87)
  else if 65 ≤ c.toNat ∧ c.toNat ≤ 70 then some (c.toNat - 55)
  else none

/-- Value of a four-hex-digit escape. -/
def hex4 (a b c d : Char) : Option Nat :=
  match hexVal a, hexVal b, hexVal c, hexVal d with
  | some x, some y, some z, some w => some (4096 * x + 256 * y + 16 * z + w)
  | _, _, _, _ => none

/-- Decode one `\uXXXX` escape (the input starts after the `\u`), combining
a high surrogate followed by a second `\uXXXX` low surrogate into one code
point, exactly as `py_scanstring` does.  Returns the decoded character and
the remaining input. -/
def decodeU : List Char → Option (Char × List Char)
  | a :: b :: c :: d :: rest3 =>
    (hex4 a b c d).bind fun n =>
      if n < 55296 ∨ 57344 ≤ n then some (Char.ofNat n, rest3)
      else if n < 56320 then
        match rest3 with
        | b1 :: b2 :: a2 :: b3 :: c3 :: d3 :: rest4 =>
          if b1 = '\\' ∧ b2 = 'u' then
            (hex4 a2 b3 c3 d3).bind fun m =>
              if 56320 ≤ m ∧ m < 57344 then
                some (Char.ofNat (65536 + 1024 * (n - 55296) + (m - 56320)), rest4)
              else none
          else none
        | _ => none
      else none
  | _ => none

/-- Body of a JSON string literal after the opening quote
(`py_scanstring`, strict): returns the decoded characters and the input
remaining after the closing quote.  Fuel-indexed (one unit per decoded
character); every caller supplies enough fuel for the inputs of interest. -/
def parseStrBody : Nat → List Char → Option (List Char × List Char)
  | 0, _ => none
  | _ + 1, [] => none
  | f + 1, c :: rest =>
    if c = '"' then some ([], rest)
    else if c = '\\' then
      match rest with
      | [] => none
      | e :: rest2 =>
        if e = '"' then (parseStrBody f rest2).map fun p => ('"' :: p.1, p.2)
        else if e = '\\' then (parseStrBody f rest2).map fun p => ('\\' :: p.1, p.2)
        else if e = '/' then (parseStrBody f rest2).map fun p => ('/' :: p.1, p.2)
        else if e = 'b' then (parseStrBody f rest2).map fun p => ('\x08' :: p.1, p.2)
        else if e = 'f' then (parseStrBody f rest2).map fun p => ('\x0c' :: p.1, p.2)
        else if e = 'n' then (parseStrBody f rest2).map fun p => ('\x0a' :: p.1, p.2)
        else if e = 'r' then (parseStrBody f rest2).map fun p => ('\x0d' :: p.1, p.2)
        else if e = 't' then (parseStrBody f rest2).map fun p => ('\x09' :: p.1, p.2)
        else if e = 'u' then
          match decodeU rest2 with
          | none => none
          | some (ch, rest3) => (parseStrBody f rest3).map fun p => (ch :: p.1, p.2)
        else none
    else if c.toNat < 32 then none
    else (parseStrBody f rest).map fun p => (c :: p.1, p.2)

/-- Decimal digit test (`\d` of the `NUMBER_RE` regular expression). -/
def isDig (c : Char) : Bool := 48 ≤ c.toNat && c.toNat ≤ 57

/-- Longest digit prefix and the rest. -/
def spanDigits : List Char → List Char × List Char
  | [] => ([], [])
  | c :: cs =>
    if isDig c then
      let p := spanDigits cs
      (c :: p.1, p.2)
    else ([], c :: cs)

/-- Numeric value of a digit string (most significant first). -/
def digitsVal (ds : List Char) : Nat :=
  ds.foldl (fun a c => 10 * a + (c.toNat - 48)) 0

/-- After the integer part of a number: a following `.`, `e` or `E` means a
float, which is outside the model. -/
def floatGuard (n : Nat) : List Char → Option (Nat × List Char)
  | c :: cs =>
    if c = '.' ∨ c = 'e' ∨ c = 'E' then none else some (n, c :: cs)
  | [] => some (n, [])

/-- JSON unsigned integer (`0` or a nonzero digit followed by digits, per
the `NUMBER_RE` regular expression of `json.scanner`). -/
def parsePosNum : List Char → Option (Nat × List Char)
  | [] => none
  | c :: cs =>
    if c = '0' then floatGuard 0 cs
    else if isDig c then
      let p := spanDigits cs
      floatGuard (digitsVal (c :: p.1)) p.2
    else none

/-- JSON integer with optional leading minus sign. -/
def parseNum : List Char → Option (Json × List Char)
  | [] => none
  | c :: rest =>
    if c = '-' then (parsePosNum rest).map fun p => (.num (-(p.1 : Int)), p.2)
    else (parsePosNum (c :: rest)).map fun p => (.num (p.1 : Int), p.2)

/-- Python-dict insertion (`dict(pairs)` key semantics): an existing key has
its value replaced in place, a new key is appended. -/
def insertKey (l : List (List Char × Json)) (k : List Char) (v : Json) :
    List (List Char × Json) :=
  if (l.map Prod.fst).contains k then
    l.map fun kv => if kv.1 = k then (k, v) else kv
  else l ++ [(k, v)]

/-- Fold the parsed member pairs into a Python dict. -/
def buildDict (pairs : List (List Char × Json)) : List (List Char × Json) :=
  pairs.foldl (fun l kv => insertKey l kv.1 kv.2) []

mutual
/-- Model of CPython `scan_once`: parse one JSON value at the head of the
input (no leading-whitespace skipping at this level). -/
def parseVal : Nat → List Char → Option (Json × List Char)
  | 0, _ => none
  | _ + 1, [] => none
  | fuel + 1, c :: rest =>
    if c = 'n' then
      match rest with
      | 'u' :: 'l' :: 'l' :: r => some (.null, r)
      | _ => none
    else if c = 't' then
      match rest with
      | 'r' :: 'u' :: 'e' :: r => some (.bool true, r)
      | _ => none
    else if c = 'f' then
      match rest with
      | 'a' :: 'l' :: 's' :: 'e' :: r => some (.bool false, r)
      | _ => none
    else if c = '"' then
      (parseStrBody (fuel + 1) rest).map fun p => (.str p.1, p.2)
    else if c = '[' then
      match skipWs rest with
      | [] => none
      | d :: r =>
        if d = ']' then some (.arr [], r)
        else
          (parseVal fuel (d :: r)).bind fun q =>
            (parseElems fuel (skipWs q.2)).map fun p => (.arr (q.1 :: p.1), p.2)
    else if c = '{' then
      match skipWs rest with
      | [] => none
      | d :: r =>
        if d = '}' then some (.obj [], r)
        else if d = '"' then
          (parseStrBody (fuel + 1) r).bind fun pk =>
            match skipWs pk.2 with
            | [] => none
            | e :: r2 =>
              if e = ':' then
                (parseVal fuel (skipWs r2)).bind fun qv =>
                  (parseMembers fuel (skipWs qv.2)).map fun p =>
                    (.obj (buildDict ((pk.1, qv.1) :: p.1)), p.2)
              else none
        else none
    else parseNum (c :: rest)

/-- Elements of an array after the first one: at `,` parse another value,
at `]` finish (`JSONArray` of `json.decoder`). -/
def parseElems : Nat → List Char → Option (List Json × List Char)
  | 0, _ => none
  | _ + 1, [] => none
  | fuel + 1, c :: rest =>
    if c = ']' then some ([], rest)
    else if c = ',' then
      (parseVal fuel (skipWs rest)).bind fun q =>
        (parseElems fuel (skipWs q.2)).map fun p => (q.1 :: p.1, p.2)
    else none

/-- Members of an object after the first one: at `,` parse another
`"key": value` pair, at `}` finish (`JSONObject` of `json.decoder`). -/
def parseMembers : Nat → List Char →
    Option (List (List Char × Json) × List Char)
  | 0, _ => none
  | _ + 1, [] => none
  | fuel + 1, c :: rest =>
    if c = '}' then some ([], rest)
    else if c = ',' then
      match skipWs rest with
      | [] => none
      | d :: kt =>
        if d = '"' then
          (parseStrBody (fuel + 1) kt).bind fun pk =>
            match skipWs pk.2 with
            | [] => none
            | e :: r2 =>
              if e = ':' then
                (parseVal fuel (skipWs r2)).bind fun qv =>
                  (parseMembers fuel (skipWs qv.2)).map fun p =>
                    ((pk.1, qv.1) :: p.1, p.2)
              else none
        else none
    else none
end

/-- Model of `json.loads`: skip leading whitespace, parse one value, skip
trailing whitespace, and reject both parse failure and extra data.  The
supplied fuel is sufficient on every output of `dumps` (proved below); the
deep-nesting inputs on which the fuel could run out are rejected by
CPython's recursion limit as well. -/
def loads (s : List Char) : Option Json :=
  match parseVal (2 * s.length + 2) (skipWs s) with
  | some (v, rest) => if skipWs rest = [] then some v else none
  | none => none

/-! ## Helper lemmas: characters and decimal digits -/

theorem toNat_ofNat_lt {n : Nat} (h : n < 55296) : (Char.ofNat n).toNat = n := by
  simp only [Char.ofNat, Nat.isValidChar]
  rw [dif_pos (Or.inl h)]
  simp [Char.ofNatAux, Char.toNat, UInt32.toNat, BitVec.toNat_ofNat]

theorem toNat_ofNat_high {n : Nat} (h1 : 57344 ≤ n) (h2 : n < 1114112) :
    (Char.ofNat n).toNat = n := by
  simp only [Char.ofNat, Nat.isValidChar]
  rw [dif_pos (Or.inr ⟨h1, h2⟩)]
  simp [Char.ofNatAux, Char.toNat, UInt32.toNat, BitVec.toNat_ofNat]

theorem char_toNat_inj {c d : Char} (h : c.toNat = d.toNat) : c = d := by
  rcases c with ⟨⟨⟨cv, hc⟩⟩, vc⟩
  rcases d with ⟨⟨⟨dv, hd⟩⟩, vd⟩
  simp only [Char.toNat, UInt32.toNat] at h
  simp_all

theorem char_toNat_lt (c : Char) : c.toNat < 1114112 := by
  have h := c.valid
  rcases h with h | ⟨h1, h2⟩
  · exact lt_trans h (by omega)
  · exact h2

theorem digitChar_toNat {n : Nat} (h : n < 10) : (digitChar n).toNat = 48 + n :=
  toNat_ofNat_lt (by omega)

theorem isDig_digitChar {n : Nat} (h : n < 10) : isDig (digitChar n) = true := by
  simp [isDig, digitChar_toNat h]; omega

theorem digitChar_ne {n : Nat} (h : n < 10) {c : Char} (hc : c.toNat < 48 ∨ 57 < c.toNat) :
    digitChar n ≠ c := by
  intro he
  rw [← he, digitChar_toNat h] at hc
  omega

theorem isDig_eq_false {c : Char} (hc : c.toNat < 48 ∨ 57 < c.toNat) :
    isDig c = false := by
  simp [isDig]; omega

/-! digits of a natural number -/

theorem natDigitsF_eq {fuel n : Nat} (h : n < fuel) :
    natDigitsF fuel n =
      (if n < 10 then [digitChar n]
       else natDigitsF (fuel - 1) (n / 10) ++ [digitChar (n % 10)]) := by
  cases fuel with
  | zero => omega
  | succ f => simp [natDigitsF]

theorem natDigitsF_irrel : ∀ n fuel₁ fuel₂ : Nat, n < fuel₁ → n < fuel₂ →
    natDigitsF fuel₁ n = natDigitsF fuel₂ n := by
  intro n
  induction n using Nat.strong_induction_on with
  | _ n ih =>
    intro fuel₁ fuel₂ h1 h2
    rw [natDigitsF_eq h1, natDigitsF_eq h2]
    by_cases h10 : n < 10
    · simp [h10]
    · simp only [if_neg h10]
      have hd : n / 10 < n := Nat.div_lt_self (by omega) (by omega)
      rw [ih (n / 10) hd (fuel₁ - 1) (fuel₂ - 1) (by omega) (by omega)]

theorem natDigits_eq (n : Nat) :
    natDigits n = (if n < 10 then [digitChar n]
      else natDigits (n / 10) ++ [digitChar (n % 10)]) := by
  rw [natDigits, natDigitsF_eq (by omega)]
  by_cases h10 : n < 10
  · simp [h10]
  · simp only [if_neg h10]
    congr 1
    exact natDigitsF_irrel _ _ _ (by omega) (by omega)

theorem natDigits_ne_nil (n : Nat) : natDigits n ≠ [] := by
  rw [natDigits_eq]
  by_cases h10 : n < 10 <;> simp [h10]

theorem mem_natDigits_isDig (n : Nat) : ∀ c ∈ natDigits n, isDig c = true := by
  induction n using Nat.strong_induction_on with
  | _ n ih =>
    rw [natDigits_eq]
    by_cases h10 : n < 10
    · simp only [if_pos h10, List.mem_singleton]
      rintro c rfl
      exact isDig_digitChar h10
    · simp only [if_neg h10, List.mem_append, List.mem_singleton]
      rintro c (hc | rfl)
      · exact ih (n / 10) (Nat.div_lt_self (by omega) (by omega)) c hc
      · exact isDig_digitChar (Nat.mod_lt _ (by omega))

theorem digitsVal_append (ds : List Char) (c : Char) :
    digitsVal (ds ++ [c]) = 10 * digitsVal ds + (c.toNat - 48) := by
  simp [digitsVal, List.foldl_append]

theorem digitsVal_natDigits (n : Nat) : digitsVal (natDigits n) = n := by
  induction n using Nat.strong_induction_on with
  | _ n ih =>
    rw [natDigits_eq]
    by_cases h10 : n < 10
    · simp [h10, digitsVal, digitChar_toNat h10]
    · simp only [if_neg h10]
      rw [digitsVal_append, ih (n / 10) (Nat.div_lt_self (by omega) (by omega)),
        digitChar_toNat (Nat.mod_lt _ (by omega))]
      omega

theorem natDigits_head_ne_zero : ∀ n : Nat, 1 ≤ n → ∀ d ds,
    natDigits n = d :: ds → d ≠ '0' := by
  intro n
  induction n using Nat.strong_induction_on with
  | _ n ih =>
    intro hn d ds h
    rw [natDigits_eq] at h
    by_cases h10 : n < 10
    · rw [if_pos h10] at h
      obtain ⟨rfl, -⟩ := List.cons.inj h
      intro he
      have h48 : (digitChar n).toNat = 48 + n := digitChar_toNat h10
      rw [he] at h48
      have h0 : ('0' : Char).toNat = 48 := rfl
      omega
    · rw [if_neg h10] at h
      obtain ⟨d2, ds2, h2⟩ := List.exists_cons_of_ne_nil (natDigits_ne_nil (n / 10))
      rw [h2, List.cons_append] at h
      obtain ⟨rfl, -⟩ := List.cons.inj h
      exact ih (n / 10) (Nat.div_lt_self (by omega) (by omega)) (by omega) d2 ds2 h2

/-! ## Round trip for numbers -/

/-- The continuation after a serialized number must not extend the numeric
literal: in `dumps` output a number is followed by nothing, `, `, `]`
or `}`. -/
def numStop : List Char → Bool
  | [] => true
  | c :: _ => !(isDig c || c = '.' || c = 'e' || c = 'E')

theorem numStop_nil : numStop [] = true := rfl

theorem numStop_cons {c : Char} {cs : List Char} (hd : isDig c = false)
    (h1 : c ≠ '.') (h2 : c ≠ 'e') (h3 : c ≠ 'E') : numStop (c :: cs) = true := by
  simp [numStop, hd, h1, h2, h3]

theorem numStop_parts {c : Char} {cs : List Char} (h : numStop (c :: cs) = true) :
    isDig c = false ∧ c ≠ '.' ∧ c ≠ 'e' ∧ c ≠ 'E' := by
  simp only [numStop, Bool.not_eq_eq_eq_not, Bool.not_true, Bool.or_eq_false_iff,
    decide_eq_false_iff_not] at h
  exact ⟨h.1.1.1, h.1.1.2, h.1.2, h.2⟩

theorem floatGuard_eq {n : Nat} {rest : List Char} (h : numStop rest = true) :
    floatGuard n rest = some (n, rest) := by
  cases rest with
  | nil => rfl
  | cons c cs =>
    obtain ⟨-, h1, h2, h3⟩ := numStop_parts h
    simp [floatGuard, h1, h2, h3]

theorem spanDigits_append {l rest : List Char} (hl : ∀ c ∈ l, isDig c = true)
    (hrest : numStop rest = true) : spanDigits (l ++ rest) = (l, rest) := by
  induction l with
  | nil =>
    cases rest with
    | nil => rfl
    | cons c cs =>
      obtain ⟨h0, -, -, -⟩ := numStop_parts hrest
      simp [spanDigits, h0]
  | cons c cs ih =>
    have hc : isDig c = true := hl c (List.mem_cons_self c cs)
    simp [spanDigits, hc, ih fun d hd => hl d (List.mem_cons_of_mem c hd)]

theorem parsePosNum_natDigits (n : Nat) {rest : List Char}
    (h : numStop rest = true) :
    parsePosNum (natDigits n ++ rest) = some (n, rest) := by
  by_cases h0 : n = 0
  · subst h0
    have hz : natDigits 0 = ['0'] := rfl
    rw [hz]
    have hstep : parsePosNum (['0'] ++ rest) = floatGuard 0 rest := rfl
    rw [hstep]
    exact floatGuard_eq h
  · obtain ⟨d, ds, hds⟩ := List.exists_cons_of_ne_nil (natDigits_ne_nil n)
    have hdig : ∀ c ∈ natDigits n, isDig c = true := mem_natDigits_isDig n
    have hd : isDig d = true := hdig d (hds ▸ List.mem_cons_self d ds)
    have hdz : d ≠ '0' := natDigits_head_ne_zero n (by omega) d ds hds
    rw [hds, List.cons_append]
    simp only [parsePosNum]
    rw [if_neg hdz, if_pos hd]
    rw [spanDigits_append (fun c hc => hdig c (hds ▸ List.mem_cons_of_mem d hc)) h]
    have hval : digitsVal (d :: ds) = n := hds ▸ digitsVal_natDigits n
    rw [hval]
    exact floatGuard_eq h

theorem parseNum_intChars (n : Int) {rest : List Char}
    (h : numStop rest = true) :
    parseNum (intChars n ++ rest) = some (.num n, rest) := by
  by_cases hn : n < 0
  · rw [intChars, if_pos hn, List.cons_append]
    have hstep : parseNum ('-' :: (natDigits (-n).toNat ++ rest)) =
        (parsePosNum (natDigits (-n).toNat ++ rest)).map
          fun p => (.num (-(p.1 : Int)), p.2) := rfl
    rw [hstep, parsePosNum_natDigits (-n).toNat h]
    have hval : (-(((-n).toNat : Nat) : Int)) = n := by omega
    show some (Json.num (-(((-n).toNat : Nat) : Int)), rest) = some (Json.num n, rest)
    rw [hval]
  · rw [intChars, if_neg hn]
    obtain ⟨d, ds, hds⟩ := List.exists_cons_of_ne_nil (natDigits_ne_nil n.toNat)
    have hd : isDig d = true := mem_natDigits_isDig n.toNat d
      (hds ▸ List.mem_cons_self d ds)
    have hdm : d ≠ '-' := by
      intro he
      rw [he] at hd
      exact absurd hd (by decide)
    rw [hds, List.cons_append]
    simp only [parseNum]
    rw [if_neg hdm, ← List.cons_append, ← hds, parsePosNum_natDigits n.toNat h]
    have hval : ((n.toNat : Nat) : Int) = n := by omega
    show some (Json.num ((n.toNat : Nat) : Int), rest) = some (Json.num n, rest)
    rw [hval]

/-! ## Round trip for strings -/

theorem hexVal_hexDigitChar : ∀ k : Nat, k < 16 → hexVal (hexDigitChar k) = some k := by
  decide

theorem hex4_uEscape_digits {n : Nat} (h : n < 65536) :
    hex4 (hexDigitChar (n / 4096 % 16)) (hexDigitChar (n / 256 % 16))
      (hexDigitChar (n / 16 % 16)) (hexDigitChar (n % 16)) = some n := by
  rw [hex4, hexVal_hexDigitChar _ (by omega), hexVal_hexDigitChar _ (by omega),
    hexVal_hexDigitChar _ (by omega), hexVal_hexDigitChar _ (by omega)]
  show some _ = some n
  congr 1
  omega

theorem decodeU_low {n : Nat} (hn : n < 65536) (hv : n < 55296 ∨ 57344 ≤ n)
    (t : List Char) :
    decodeU (hexDigitChar (n / 4096 % 16) :: hexDigitChar (n / 256 % 16) ::
      hexDigitChar (n / 16 % 16) :: hexDigitChar (n % 16) :: t) =
      some (Char.ofNat n, t) := by
  simp only [decodeU]
  rw [hex4_uEscape_digits hn]
  simp [hv]


theorem decodeU_pair {hi lo : Nat} (hhi1 : 55296 ≤ hi) (hhi2 : hi < 56320)
    (hlo1 : 56320 ≤ lo) (hlo2 : lo < 57344) (t : List Char) :
    decodeU (hexDigitChar (hi / 4096 % 16) :: hexDigitChar (hi / 256 % 16) ::
      hexDigitChar (hi / 16 % 16) :: hexDigitChar (hi % 16) :: (uEscape lo ++ t)) =
      some (Char.ofNat (65536 + 1024 * (hi - 55296) + (lo - 56320)), t) := by
  simp only [decodeU]
  rw [hex4_uEscape_digits (by omega : hi < 65536)]
  have he : uEscape lo ++ t =
      '\\' :: 'u' :: hexDigitChar (lo / 4096 % 16) :: hexDigitChar (lo / 256 % 16) ::
        hexDigitChar (lo / 16 % 16) :: hexDigitChar (lo % 16) :: t := rfl
  rw [he]
  simp only [Option.some_bind]
  rw [if_neg (by omega : ¬(hi < 55296 ∨ 57344 ≤ hi)),
    if_pos (by omega : hi < 56320)]
  simp [hex4_uEscape_digits (show lo < 65536 by omega), hlo1, hlo2]

/-! single steps of `parseStrBody` -/

theorem psb_u_some {r2 r3 : List Char} {ch : Char}
    (hd : decodeU r2 = some (ch, r3)) (f : Nat) :
    parseStrBody (f + 1) ('\\' :: 'u' :: r2) =
      (parseStrBody f r3).map fun p => (ch :: p.1, p.2) := by
  have h0 : parseStrBody (f + 1) ('\\' :: 'u' :: r2) =
      match decodeU r2 with
      | none => none
      | some (ch, rest3) => (parseStrBody f rest3).map fun p => (ch :: p.1, p.2) := rfl
  rw [h0, hd]

theorem psb_plain {c : Char} (h1 : c ≠ '"') (h2 : c ≠ '\\') (h3 : ¬c.toNat < 32)
    (f : Nat) (rest : List Char) :
    parseStrBody (f + 1) (c :: rest) =
      (parseStrBody f rest).map fun p => (c :: p.1, p.2) := by
  simp only [parseStrBody]
  rw [if_neg h1, if_neg h2, if_neg h3]

/-- Valid code points below `0x10000` avoid the surrogate range. -/
theorem char_valid_low {c : Char} (h : c.toNat < 65536) :
    c.toNat < 55296 ∨ 57344 ≤ c.toNat := by
  have hv := c.valid
  have hb : c.toNat = c.val.toNat := rfl
  rcases hv with hv | ⟨hv1, hv2⟩
  · exact Or.inl (by omega)
  · exact Or.inr (by omega)

/-- The round trip for string literal bodies: parsing back the escaped
characters recovers them and stops at the closing quote. -/
theorem parseStrBody_encChars : ∀ (s : List Char) (f : Nat), s.length < f →
    ∀ rest : List Char,
    parseStrBody f (encChars s ++ '"' :: rest) = some (s, rest) := by
  intro s
  induction s with
  | nil =>
    intro f hf rest
    cases f with
    | zero => omega
    | succ g => rfl
  | cons c cs ih =>
    intro f hf rest
    cases f with
    | zero => omega
    | succ g =>
    have hg : cs.length < g := by simp at hf; omega
    have hassoc : encChars (c :: cs) ++ '"' :: rest =
        encChar c ++ (encChars cs ++ '"' :: rest) := by
      show (encChar c ++ encChars cs) ++ '"' :: rest = _
      rw [List.append_assoc]
    rw [hassoc]
    by_cases h1 : c = '"'
    · subst h1
      have henc : encChar '"' = ['\\', '"'] := rfl
      rw [henc]
      have hstep : parseStrBody (g + 1) (['\\', '"'] ++ (encChars cs ++ '"' :: rest)) =
          (parseStrBody g (encChars cs ++ '"' :: rest)).map
            fun p => ('"' :: p.1, p.2) := rfl
      rw [hstep, ih g hg rest]
      rfl
    by_cases h2 : c = '\\'
    · subst h2
      have henc : encChar '\\' = ['\\', '\\'] := rfl
      rw [henc]
      have hstep : parseStrBody (g + 1) (['\\', '\\'] ++ (encChars cs ++ '"' :: rest)) =
          (parseStrBody g (encChars cs ++ '"' :: rest)).map
            fun p => ('\\' :: p.1, p.2) := rfl
      rw [hstep, ih g hg rest]
      rfl
    by_cases h3 : c = '\x08'
    · subst h3
      have henc : encChar '\x08' = ['\\', 'b'] := rfl
      rw [henc]
      have hstep : parseStrBody (g + 1) (['\\', 'b'] ++ (encChars cs ++ '"' :: rest)) =
          (parseStrBody g (encChars cs ++ '"' :: rest)).map
            fun p => ('\x08' :: p.1, p.2) := rfl
      rw [hstep, ih g hg rest]
      rfl
    by_cases h4 : c = '\x09'
    · subst h4
      have henc : encChar '\x09' = ['\\', 't'] := rfl
      rw [henc]
      have hstep : parseStrBody (g + 1) (['\\', 't'] ++ (encChars cs ++ '"' :: rest)) =
          (parseStrBody g (encChars cs ++ '"' :: rest)).map
            fun p => ('\x09' :: p.1, p.2) := rfl
      rw [hstep, ih g hg rest]
      rfl
    by_cases h5 : c = '\x0a'
    · subst h5
      have henc : encChar '\x0a' = ['\\', 'n'] := rfl
      rw [henc]
      have hstep : parseStrBody (g + 1) (['\\', 'n'] ++ (encChars cs ++ '"' :: rest)) =
          (parseStrBody g (encChars cs ++ '"' :: rest)).map
            fun p => ('\x0a' :: p.1, p.2) := rfl
      rw [hstep, ih g hg rest]
      rfl
    by_cases h6 : c = '\x0c'
    · subst h6
      have henc : encChar '\x0c' = ['\\', 'f'] := rfl
      rw [henc]
      have hstep : parseStrBody (g + 1) (['\\', 'f'] ++ (encChars cs ++ '"' :: rest)) =
          (parseStrBody g (encChars cs ++ '"' :: rest)).map
            fun p => ('\x0c' :: p.1, p.2) := rfl
      rw [hstep, ih g hg rest]
      rfl
    by_cases h7 : c = '\x0d'
    · subst h7
      have henc : encChar '\x0d' = ['\\', 'r'] := rfl
      rw [henc]
      have hstep : parseStrBody (g + 1) (['\\', 'r'] ++ (encChars cs ++ '"' :: rest)) =
          (parseStrBody g (encChars cs ++ '"' :: rest)).map
            fun p => ('\x0d' :: p.1, p.2) := rfl
      rw [hstep, ih g hg rest]
      rfl
    by_cases h8 : c.toNat < 32 ∨ 126 < c.toNat
    · have henc : encChar c =
          (if c.toNat < 65536 then uEscape c.toNat
           else uEscape (55296 + (c.toNat - 65536) / 1024) ++
             uEscape (56320 + (c.toNat - 65536) % 1024)) := by
        rw [encChar, if_neg h1, if_neg h2, if_neg h3, if_neg h4, if_neg h5,
          if_neg h6, if_neg h7, if_pos h8]
      by_cases h9 : c.toNat < 65536
      · rw [henc, if_pos h9]
        have hsh : uEscape c.toNat ++ (encChars cs ++ '"' :: rest) =
            '\\' :: 'u' :: (hexDigitChar (c.toNat / 4096 % 16) ::
              hexDigitChar (c.toNat / 256 % 16) :: hexDigitChar (c.toNat / 16 % 16) ::
              hexDigitChar (c.toNat % 16) :: (encChars cs ++ '"' :: rest)) := rfl
        rw [hsh, psb_u_some (decodeU_low h9 (char_valid_low h9) _) g, ih g hg rest]
        show some (Char.ofNat c.toNat :: cs, rest) = some (c :: cs, rest)
        rw [Char.ofNat_toNat]
      · have hN := char_toNat_lt c
        set N := c.toNat with hNdef
        have hhi1 : 55296 ≤ 55296 + (N - 65536) / 1024 := by omega
        have hhi2 : 55296 + (N - 65536) / 1024 < 56320 := by omega
        have hlo1 : 56320 ≤ 56320 + (N - 65536) % 1024 := by omega
        have hlo2 : 56320 + (N - 65536) % 1024 < 57344 := by omega
        rw [henc, if_neg h9, List.append_assoc]
        have hsh : uEscape (55296 + (N - 65536) / 1024) ++
            (uEscape (56320 + (N - 65536) % 1024) ++ (encChars cs ++ '"' :: rest)) =
            '\\' :: 'u' :: (hexDigitChar ((55296 + (N - 65536) / 1024) / 4096 % 16) ::
              hexDigitChar ((55296 + (N - 65536) / 1024) / 256 % 16) ::
              hexDigitChar ((55296 + (N - 65536) / 1024) / 16 % 16) ::
              hexDigitChar ((55296 + (N - 65536) / 1024) % 16) ::
              (uEscape (56320 + (N - 65536) % 1024) ++ (encChars cs ++ '"' :: rest))) := rfl
        rw [hsh, psb_u_some (decodeU_pair hhi1 hhi2 hlo1 hlo2 _) g, ih g hg rest]
        have hback : 65536 + 1024 * (55296 + (N - 65536) / 1024 - 55296) +
            (56320 + (N - 65536) % 1024 - 56320) = N := by omega
        rw [hback]
        show some (Char.ofNat N :: cs, rest) = some (c :: cs, rest)
        rw [hNdef, Char.ofNat_toNat]
    · have henc : encChar c = [c] := by
        rw [encChar, if_neg h1, if_neg h2, if_neg h3, if_neg h4, if_neg h5,
          if_neg h6, if_neg h7, if_neg h8]
      rw [henc, List.singleton_append,
        psb_plain h1 h2 (by omega) g (encChars cs ++ '"' :: rest), ih g hg rest]
      rfl

/-! ## Structural induction for nested `Json` values -/

theorem Json.inductionOn {motive : Json → Prop}
    (null : motive .null) (bool : ∀ b, motive (.bool b))
    (num : ∀ n, motive (.num n)) (str : ∀ s, motive (.str s))
    (arr : ∀ xs, (∀ x ∈ xs, motive x) → motive (.arr xs))
    (obj : ∀ kvs, (∀ kv ∈ kvs, motive kv.2) → motive (.obj kvs)) :
    ∀ j, motive j
  | .null => null
  | .bool b => bool b
  | .num n => num n
  | .str s => str s
  | .arr xs => arr xs fun x hx =>
      have : sizeOf x < sizeOf (Json.arr xs) := by
        have h1 := List.sizeOf_lt_of_mem hx
        simp only [Json.arr.sizeOf_spec]
        omega
      Json.inductionOn null bool num str arr obj x
  | .obj kvs => obj kvs fun kv hkv =>
      have : sizeOf kv.2 < 1 + sizeOf kvs := by
        have h1 := List.sizeOf_lt_of_mem hkv
        rcases kv with ⟨k, v⟩
        simp only [] at h1 ⊢
        have h2 : sizeOf ((k, v) : List Char × Json) = 1 + sizeOf k + sizeOf v := rfl
        omega
      Json.inductionOn null bool num str arr obj kv.2
termination_by j => sizeOf j

/-! ## Heads of serialized values -/

theorem skipWs_not_ws {c : Char} (h : ¬(c = ' ' ∨ c = '\t' ∨ c = '\n' ∨ c = '\r'))
    (cs : List Char) : skipWs (c :: cs) = c :: cs := by
  simp only [skipWs]
  rw [if_neg h]

theorem isDig_ne_of_out {d : Char} (hd : isDig d = true) {c : Char}
    (hc : c.toNat < 48 ∨ 57 < c.toNat) : d ≠ c := by
  intro he
  subst he
  simp only [isDig, Bool.and_eq_true, decide_eq_true_eq] at hd
  omega

theorem isDig_not_ws {d : Char} (hd : isDig d = true) :
    ¬(d = ' ' ∨ d = '\t' ∨ d = '\n' ∨ d = '\r') := by
  rintro (rfl | rfl | rfl | rfl) <;> revert hd <;> decide

/-- `dumps` output is never empty and never starts with whitespace: skipping
whitespace in front of it is the identity. -/
theorem skipWs_dumps (e : Json) (t : List Char) :
    skipWs (dumps e ++ t) = dumps e ++ t := by
  cases e with
  | null => exact skipWs_not_ws (by decide) _
  | bool b => cases b <;> exact skipWs_not_ws (by decide) _
  | str s => exact skipWs_not_ws (by decide) _
  | arr xs => exact skipWs_not_ws (by decide) _
  | obj kvs => exact skipWs_not_ws (by decide) _
  | num n =>
    show skipWs (intChars n ++ t) = intChars n ++ t
    rw [intChars]
    by_cases hn : n < 0
    · rw [if_pos hn, List.cons_append]
      exact skipWs_not_ws (by decide) _
    · rw [if_neg hn]
      obtain ⟨d, ds, hds⟩ := List.exists_cons_of_ne_nil (natDigits_ne_nil n.toNat)
      have hd : isDig d = true := mem_natDigits_isDig n.toNat d
        (hds ▸ List.mem_cons_self d ds)
      rw [hds, List.cons_append]
      exact skipWs_not_ws (isDig_not_ws hd) _

/-! ## The tail shape of serialized arrays and objects -/

/-- Characters of a serialized array after its first element: for each
further element `", "` then the element, then the closing `]`. -/
def tailEnc : List Json → List Char
  | [] => [']']
  | y :: ys => ',' :: ' ' :: (dumps y ++ tailEnc ys)

/-- Characters of one serialized object member, `"key": value`. -/
def memberChars (kv : List Char × Json) : List Char :=
  encStr kv.1 ++ ':' :: ' ' :: dumps kv.2

/-- Characters of a serialized object after its first member. -/
def tailEncKV : List (List Char × Json) → List Char
  | [] => ['}']
  | kv :: kvs => ',' :: ' ' :: (memberChars kv ++ tailEncKV kvs)

theorem joinComma_tail : ∀ (xs : List Json) (x : Json),
    joinComma (dumpsList (x :: xs)) ++ [']'] = dumps x ++ tailEnc xs := by
  intro xs
  induction xs with
  | nil => intro x; simp [dumpsList, joinComma, tailEnc]
  | cons y ys ih =>
    intro x
    show joinComma (dumps x :: dumpsList (y :: ys)) ++ [']'] = _
    have hcons : ∃ d ds, dumpsList (y :: ys) = d :: ds := ⟨dumps y, dumpsList ys, rfl⟩
    obtain ⟨d, ds, hds⟩ := hcons
    rw [hds]
    show (dumps x ++ ',' :: ' ' :: joinComma (d :: ds)) ++ [']'] = _
    rw [← hds, List.append_assoc]
    have : ',' :: ' ' :: joinComma (dumpsList (y :: ys)) ++ [']'] =
        ',' :: ' ' :: (joinComma (dumpsList (y :: ys)) ++ [']']) := rfl
    rw [this, ih y]
    rfl

theorem joinComma_tailKV : ∀ (kvs : List (List Char × Json)) (kv : List Char × Json),
    joinComma (dumpsKVs (kv :: kvs)) ++ ['}'] = memberChars kv ++ tailEncKV kvs := by
  intro kvs
  induction kvs with
  | nil =>
    intro kv
    rcases kv with ⟨k, v⟩
    simp [dumpsKVs, joinComma, tailEncKV, memberChars]
  | cons kv2 kvs2 ih =>
    intro kv
    rcases kv with ⟨k, v⟩
    rcases kv2 with ⟨k2, v2⟩
    show joinComma ((encStr k ++ ':' :: ' ' :: dumps v) :: dumpsKVs ((k2, v2) :: kvs2)) ++
        ['}'] = _
    have hcons : ∃ d ds, dumpsKVs ((k2, v2) :: kvs2) = d :: ds :=
      ⟨encStr k2 ++ ':' :: ' ' :: dumps v2, dumpsKVs kvs2, rfl⟩
    obtain ⟨d, ds, hds⟩ := hcons
    rw [hds]
    show ((encStr k ++ ':' :: ' ' :: dumps v) ++ ',' :: ' ' :: joinComma (d :: ds)) ++
        ['}'] = _
    rw [← hds, List.append_assoc]
    have : ',' :: ' ' :: joinComma (dumpsKVs ((k2, v2) :: kvs2)) ++ ['}'] =
        ',' :: ' ' :: (joinComma (dumpsKVs ((k2, v2) :: kvs2)) ++ ['}']) := rfl
    rw [this, ih (k2, v2)]
    rfl

theorem dumps_arr_cons (x : Json) (xs : List Json) :
    dumps (.arr (x :: xs)) = '[' :: (dumps x ++ tailEnc xs) := by
  show '[' :: (joinComma (dumpsList (x :: xs)) ++ [']']) = _
  rw [joinComma_tail]

theorem dumps_obj_cons (kv : List Char × Json) (kvs : List (List Char × Json)) :
    dumps (.obj (kv :: kvs)) = '{' :: (memberChars kv ++ tailEncKV kvs) := by
  show '{' :: (joinComma (dumpsKVs (kv :: kvs)) ++ ['}']) = _
  rw [joinComma_tailKV]

theorem numStop_tailEnc (xs : List Json) (rest : List Char) :
    numStop (tailEnc xs ++ rest) = true := by
  cases xs with
  | nil => exact numStop_cons (by decide) (by decide) (by decide) (by decide)
  | cons y ys => exact numStop_cons (by decide) (by decide) (by decide) (by decide)

theorem numStop_tailEncKV (kvs : List (List Char × Json)) (rest : List Char) :
    numStop (tailEncKV kvs ++ rest) = true := by
  cases kvs with
  | nil => exact numStop_cons (by decide) (by decide) (by decide) (by decide)
  | cons kv kvs2 => exact numStop_cons (by decide) (by decide) (by decide) (by decide)

/-! ## Fuel accounting for the value parser -/

mutual
/-- Fuel sufficient for `parseVal` on the serialization of a value. -/
def jfuel : Json → Nat
  | .null => 1
  | .bool _ => 1
  | .num _ => 1
  | .str s => s.length + 2
  | .arr xs => 1 + jfuelList xs
  | .obj kvs => 1 + jfuelKVs kvs

/-- Fuel sufficient for the element loop of `parseElems`. -/
def jfuelList : List Json → Nat
  | [] => 1
  | x :: xs => 1 + jfuel x + jfuelList xs

/-- Fuel sufficient for the member loop of `parseMembers`. -/
def jfuelKVs : List (List Char × Json) → Nat
  | [] => 1
  | (k, v) :: kvs => 2 + k.length + jfuel v + jfuelKVs kvs
end

/-! ## Objects with no duplicate keys -/

/-- Pairwise-distinct key list (what a decoded Python dict guarantees). -/
def distinctKeys : List (List Char) → Bool
  | [] => true
  | k :: ks => !ks.contains k && distinctKeys ks

mutual
/-- Every object in the value, at any depth, has pairwise-distinct keys.
This holds of every value produced by `loads` (Python dicts cannot carry
duplicate keys). -/
def nodupKeys : Json → Bool
  | .null => true
  | .bool _ => true
  | .num _ => true
  | .str _ => true
  | .arr xs => nodupKeysList xs
  | .obj kvs => distinctKeys (kvs.map Prod.fst) && nodupKeysKVs kvs

/-- `nodupKeys` for every element. -/
def nodupKeysList : List Json → Bool
  | [] => true
  | x :: xs => nodupKeys x && nodupKeysList xs

/-- `nodupKeys` for every member value. -/
def nodupKeysKVs : List (List Char × Json) → Bool
  | [] => true
  | (_, v) :: kvs => nodupKeys v && nodupKeysKVs kvs
end

theorem nodupKeysList_mem {xs : List Json} (h : nodupKeysList xs = true) :
    ∀ x ∈ xs, nodupKeys x = true := by
  induction xs with
  | nil => intro x hx; cases hx
  | cons y ys ih =>
    simp only [nodupKeysList, Bool.and_eq_true] at h
    intro x hx
    rcases List.mem_cons.mp hx with rfl | hx2
    · exact h.1
    · exact ih h.2 x hx2

theorem nodupKeysKVs_mem {kvs : List (List Char × Json)}
    (h : nodupKeysKVs kvs = true) : ∀ kv ∈ kvs, nodupKeys kv.2 = true := by
  induction kvs with
  | nil => intro kv hkv; cases hkv
  | cons kv2 kvs2 ih =>
    rcases kv2 with ⟨k2, v2⟩
    simp only [nodupKeysKVs, Bool.and_eq_true] at h
    intro kv hkv
    rcases List.mem_cons.mp hkv with rfl | hkv2
    · exact h.1
    · exact ih h.2 kv hkv2

/-! Rebuilding a dict from distinct-keyed pairs is the identity. -/

theorem insertKey_append {l : List (List Char × Json)} {k : List Char}
    (hk : k ∉ l.map Prod.fst) (v : Json) :
    insertKey l k v = l ++ [(k, v)] := by
  rw [insertKey]
  have hc : (l.map Prod.fst).contains k = false := by
    rw [← Bool.not_eq_true]
    intro hcon
    exact hk (List.elem_iff.mp hcon)
  rw [hc]
  rfl

theorem distinctKeys_nodup : ∀ ks : List (List Char),
    distinctKeys ks = true ↔ ks.Nodup := by
  intro ks
  induction ks with
  | nil => simp [distinctKeys]
  | cons k ks2 ih =>
    rw [distinctKeys, List.nodup_cons, ← ih, Bool.and_eq_true,
      Bool.not_eq_eq_eq_not, Bool.not_true]
    constructor
    · rintro ⟨h1, h2⟩
      refine ⟨fun hm => ?_, h2⟩
      rw [show ks2.contains k = true from List.elem_iff.mpr hm] at h1
      cases h1
    · rintro ⟨h1, h2⟩
      refine ⟨?_, h2⟩
      rw [← Bool.not_eq_true]
      intro hcon
      exact h1 (List.elem_iff.mp hcon)

theorem foldl_insertKey {pairs : List (List Char × Json)} :
    ∀ acc : List (List Char × Json),
    (acc.map Prod.fst ++ pairs.map Prod.fst).Nodup →
    pairs.foldl (fun l kv => insertKey l kv.1 kv.2) acc = acc ++ pairs := by
  induction pairs with
  | nil => intro acc h; simp
  | cons kv rest ih =>
    intro acc h
    rcases kv with ⟨k, v⟩
    have hmapcons : ((k, v) :: rest).map Prod.fst = k :: rest.map Prod.fst := rfl
    rw [hmapcons] at h
    have hknotacc : k ∉ acc.map Prod.fst := by
      have hdisj := List.disjoint_of_nodup_append h
      intro hk
      exact hdisj hk (List.mem_cons_self k _)
    show List.foldl (fun l kv => insertKey l kv.1 kv.2) (insertKey acc k v) rest =
      acc ++ (k, v) :: rest
    rw [insertKey_append hknotacc v]
    have hperm : (acc ++ [(k, v)]).map Prod.fst ++ rest.map Prod.fst =
        acc.map Prod.fst ++ k :: rest.map Prod.fst := by
      simp
    rw [ih (acc ++ [(k, v)]) (by rw [hperm]; exact h), List.append_assoc]
    rfl

theorem buildDict_self {pairs : List (List Char × Json)}
    (h : distinctKeys (pairs.map Prod.fst) = true) : buildDict pairs = pairs := by
  have hnd : (pairs.map Prod.fst).Nodup := (distinctKeys_nodup _).mp h
  have := @foldl_insertKey pairs [] (by simpa using hnd)
  simpa [buildDict] using this

/-! ## Length bounds: the `loads` fuel is sufficient on `dumps` output -/

theorem encChar_len_pos (c : Char) : 1 ≤ (encChar c).length := by
  rw [encChar]
  split_ifs <;> simp [uEscape]

theorem encChars_len (s : List Char) : s.length ≤ (encChars s).length := by
  induction s with
  | nil => simp [encChars]
  | cons c cs ih =>
    show (c :: cs).length ≤ (encChar c ++ encChars cs).length
    rw [List.length_append, List.length_cons]
    have := encChar_len_pos c
    omega

theorem dumps_len_pos (e : Json) : 1 ≤ (dumps e).length := by
  cases e with
  | null =>
    have h : dumps .null = ['n', 'u', 'l', 'l'] := rfl
    simp [h]
  | bool b =>
    cases b with
    | true => have h : dumps (.bool true) = ['t', 'r', 'u', 'e'] := rfl; simp [h]
    | false => have h : dumps (.bool false) = ['f', 'a', 'l', 's', 'e'] := rfl; simp [h]
  | num n =>
    have h : dumps (.num n) = intChars n := rfl
    rw [h, intChars]
    by_cases hn : n < 0
    · simp [hn]
    · rw [if_neg hn]
      exact List.length_pos.mpr (natDigits_ne_nil _)
  | str s =>
    have h : dumps (.str s) = '"' :: (encChars s ++ ['"']) := rfl
    simp [h]
  | arr xs =>
    have h : dumps (.arr xs) = '[' :: (joinComma (dumpsList xs) ++ [']']) := rfl
    simp [h]
  | obj kvs =>
    have h : dumps (.obj kvs) = '{' :: (joinComma (dumpsKVs kvs) ++ ['}']) := rfl
    simp [h]

theorem memberChars_len (kv : List Char × Json) :
    kv.1.length + 4 + (dumps kv.2).length ≤ (memberChars kv).length := by
  rcases kv with ⟨k, v⟩
  show k.length + 4 + (dumps v).length ≤ (encStr k ++ ':' :: ' ' :: dumps v).length
  rw [List.length_append, encStr]
  simp only [List.length_cons, List.length_append, List.length_singleton]
  have := encChars_len k
  omega

theorem jfuel_le : ∀ e : Json, jfuel e ≤ 2 * (dumps e).length := by
  intro e
  induction e using Json.inductionOn with
  | null =>
    have h : dumps .null = ['n', 'u', 'l', 'l'] := rfl
    simp [jfuel, h]
  | bool b =>
    cases b with
    | true =>
      have h : dumps (.bool true) = ['t', 'r', 'u', 'e'] := rfl
      simp [jfuel, h]
    | false =>
      have h : dumps (.bool false) = ['f', 'a', 'l', 's', 'e'] := rfl
      simp [jfuel, h]
  | num n =>
    have h := dumps_len_pos (.num n)
    simp only [jfuel]
    omega
  | str s =>
    have h : dumps (.str s) = '"' :: (encChars s ++ ['"']) := rfl
    have h2 := encChars_len s
    simp only [jfuel, h, List.length_cons, List.length_append, List.length_singleton]
    omega
  | arr xs hmem =>
    have hlist : ∀ l : List Json, (∀ x ∈ l, jfuel x ≤ 2 * (dumps x).length) →
        jfuelList l ≤ 2 * (tailEnc l).length := by
      intro l
      induction l with
      | nil => intro _; simp [jfuelList, tailEnc]
      | cons y ys ih =>
        intro hl
        have hy := hl y (List.mem_cons_self _ _)
        have hys := ih fun x hx => hl x (List.mem_cons_of_mem _ hx)
        simp only [jfuelList, tailEnc, List.length_cons, List.length_append]
        omega
    cases xs with
    | nil =>
      have h : dumps (.arr []) = ['[', ']'] := rfl
      simp [jfuel, jfuelList, h]
    | cons x xs2 =>
      have h1 := hmem x (List.mem_cons_self _ _)
      have h2 := hlist xs2 fun z hz => hmem z (List.mem_cons_of_mem _ hz)
      rw [dumps_arr_cons]
      simp only [jfuel, jfuelList, List.length_cons, List.length_append]
      omega
  | obj kvs hmem =>
    have hlist : ∀ l : List (List Char × Json),
        (∀ kv ∈ l, jfuel kv.2 ≤ 2 * (dumps kv.2).length) →
        jfuelKVs l ≤ 2 * (tailEncKV l).length := by
      intro l
      induction l with
      | nil => intro _; simp [jfuelKVs, tailEncKV]
      | cons kv kvs2 ih =>
        intro hl
        have hy := hl kv (List.mem_cons_self _ _)
        have hys := ih fun x hx => hl x (List.mem_cons_of_mem _ hx)
        have hmc := memberChars_len kv
        rcases kv with ⟨k, v⟩
        simp only [jfuelKVs, tailEncKV, List.length_cons, List.length_append] at *
        omega
    cases kvs with
    | nil =>
      have h : dumps (.obj []) = ['{', '}'] := rfl
      simp [jfuel, jfuelKVs, h]
    | cons kv kvs2 =>
      have h1 := hmem kv (List.mem_cons_self _ _)
      have h2 := hlist kvs2 fun z hz => hmem z (List.mem_cons_of_mem _ hz)
      have hmc := memberChars_len kv
      rw [dumps_obj_cons]
      rcases kv with ⟨k, v⟩
      simp only [jfuel, jfuelKVs, List.length_cons, List.length_append] at *
      omega

/-! ## Round trip for whole values -/

theorem skipWs_tailEnc (ys : List Json) (rest : List Char) :
    skipWs (tailEnc ys ++ rest) = tailEnc ys ++ rest := by
  cases ys with
  | nil => exact skipWs_not_ws (by decide) _
  | cons y ys2 => exact skipWs_not_ws (by decide) _

theorem skipWs_tailEncKV (kvs : List (List Char × Json)) (rest : List Char) :
    skipWs (tailEncKV kvs ++ rest) = tailEncKV kvs ++ rest := by
  cases kvs with
  | nil => exact skipWs_not_ws (by decide) _
  | cons kv kvs2 => exact skipWs_not_ws (by decide) _

/-- Every serialization starts with a known kind of character. -/
theorem dumps_head_cases (e : Json) : ∃ d ds, dumps e = d :: ds ∧
    (d = 'n' ∨ d = 't' ∨ d = 'f' ∨ d = '"' ∨ d = '[' ∨ d = '{' ∨ d = '-' ∨
      isDig d = true) := by
  cases e with
  | null => exact ⟨'n', _, rfl, by simp⟩
  | bool b =>
    cases b with
    | true => exact ⟨'t', _, rfl, by simp⟩
    | false => exact ⟨'f', _, rfl, by simp⟩
  | str s => exact ⟨'"', _, rfl, by simp⟩
  | arr xs =>
    refine ⟨'[', joinComma (dumpsList xs) ++ [']'], rfl, by simp⟩
  | obj kvs =>
    refine ⟨'{', joinComma (dumpsKVs kvs) ++ ['}'], rfl, by simp⟩
  | num n =>
    show ∃ d ds, intChars n = d :: ds ∧ _
    rw [intChars]
    by_cases hn : n < 0
    · rw [if_pos hn]
      exact ⟨'-', _, rfl, by simp⟩
    · rw [if_neg hn]
      obtain ⟨d, ds, hds⟩ := List.exists_cons_of_ne_nil (natDigits_ne_nil n.toNat)
      have hd : isDig d = true := mem_natDigits_isDig n.toNat d
        (hds ▸ List.mem_cons_self d ds)
      exact ⟨d, ds, hds, by simp [hd]⟩

theorem dumps_head_ne_rbrack {e : Json} {d : Char} {ds : List Char}
    (hds : dumps e = d :: ds)
    (hcase : d = 'n' ∨ d = 't' ∨ d = 'f' ∨ d = '"' ∨ d = '[' ∨ d = '{' ∨ d = '-' ∨
      isDig d = true) : d ≠ ']' ∧ d ≠ '}' := by
  rcases hcase with rfl | rfl | rfl | rfl | rfl | rfl | rfl | hdig
  · exact ⟨by decide, by decide⟩
  · exact ⟨by decide, by decide⟩
  · exact ⟨by decide, by decide⟩
  · exact ⟨by decide, by decide⟩
  · exact ⟨by decide, by decide⟩
  · exact ⟨by decide, by decide⟩
  · exact ⟨by decide, by decide⟩
  · exact ⟨isDig_ne_of_out hdig (by decide), isDig_ne_of_out hdig (by decide)⟩

/-- Parsing the remainder of a serialized array (after the first element)
recovers the remaining elements. -/
theorem parseElems_tail : ∀ xs : List Json,
    (∀ x ∈ xs, ∀ f rest, jfuel x ≤ f → numStop rest = true →
      parseVal f (dumps x ++ rest) = some (x, rest)) →
    ∀ f rest, jfuelList xs ≤ f → numStop rest = true →
    parseElems f (tailEnc xs ++ rest) = some (xs, rest) := by
  intro xs
  induction xs with
  | nil =>
    intro _ f rest hf hstop
    cases f with
    | zero => simp [jfuelList] at hf
    | succ g => rfl
  | cons y ys ih =>
    intro hIH f rest hf hstop
    have hy := hIH y (List.mem_cons_self _ _)
    have hys := ih fun x hx => hIH x (List.mem_cons_of_mem _ hx)
    cases f with
    | zero => simp [jfuelList] at hf
    | succ g =>
    have hgy : jfuel y ≤ g := by simp only [jfuelList] at hf; omega
    have hgys : jfuelList ys ≤ g := by simp only [jfuelList] at hf; omega
    show parseElems (g + 1) (',' :: ' ' :: ((dumps y ++ tailEnc ys) ++ rest)) =
      some (y :: ys, rest)
    have hstep : parseElems (g + 1) (',' :: ' ' :: ((dumps y ++ tailEnc ys) ++ rest)) =
        (parseVal g (skipWs (' ' :: ((dumps y ++ tailEnc ys) ++ rest)))).bind fun q =>
          (parseElems g (skipWs q.2)).map fun p => (q.1 :: p.1, p.2) := rfl
    rw [hstep]
    have hsw1 : skipWs (' ' :: ((dumps y ++ tailEnc ys) ++ rest)) =
        dumps y ++ (tailEnc ys ++ rest) := by
      show skipWs ((dumps y ++ tailEnc ys) ++ rest) = _
      rw [List.append_assoc]
      exact skipWs_dumps y _
    rw [hsw1, hy g (tailEnc ys ++ rest) hgy (numStop_tailEnc ys rest)]
    simp only [Option.some_bind]
    rw [skipWs_tailEnc ys rest, hys g rest hgys hstop]
    rfl

/-- Parsing the remainder of a serialized object (after the first member)
recovers the remaining member pairs. -/
theorem parseMembers_tail : ∀ kvs : List (List Char × Json),
    (∀ kv ∈ kvs, ∀ f rest, jfuel kv.2 ≤ f → numStop rest = true →
      parseVal f (dumps kv.2 ++ rest) = some (kv.2, rest)) →
    ∀ f rest, jfuelKVs kvs ≤ f → numStop rest = true →
    parseMembers f (tailEncKV kvs ++ rest) = some (kvs, rest) := by
  intro kvs
  induction kvs with
  | nil =>
    intro _ f rest hf hstop
    cases f with
    | zero => simp [jfuelKVs] at hf
    | succ g => rfl
  | cons kv kvs2 ih =>
    intro hIH f rest hf hstop
    have hv := hIH kv (List.mem_cons_self _ _)
    have hkvs2 := ih fun x hx => hIH x (List.mem_cons_of_mem _ hx)
    rcases kv with ⟨k, v⟩
    cases f with
    | zero => simp [jfuelKVs] at hf
    | succ g =>
    have hfacts : k.length < g + 1 ∧ jfuel v ≤ g ∧ jfuelKVs kvs2 ≤ g := by
      simp only [jfuelKVs] at hf
      omega
    show parseMembers (g + 1)
      (',' :: ' ' :: ((memberChars (k, v) ++ tailEncKV kvs2) ++ rest)) =
      some ((k, v) :: kvs2, rest)
    have hshape : (memberChars (k, v) ++ tailEncKV kvs2) ++ rest =
        '"' :: (encChars k ++ '"' :: ':' :: ' ' ::
          (dumps v ++ (tailEncKV kvs2 ++ rest))) := by
      simp [memberChars, encStr, List.append_assoc]
    have hswT : skipWs (' ' :: ((memberChars (k, v) ++ tailEncKV kvs2) ++ rest)) =
        '"' :: (encChars k ++ '"' :: ':' :: ' ' ::
          (dumps v ++ (tailEncKV kvs2 ++ rest))) := by
      show skipWs ((memberChars (k, v) ++ tailEncKV kvs2) ++ rest) = _
      rw [hshape]
      exact skipWs_not_ws (by decide) _
    simp only [parseMembers, hswT]
    rw [parseStrBody_encChars k (g + 1) hfacts.1
      (':' :: ' ' :: (dumps v ++ (tailEncKV kvs2 ++ rest)))]
    simp only [Option.some_bind]
    have hsw2 : skipWs (':' :: ' ' :: (dumps v ++ (tailEncKV kvs2 ++ rest))) =
        ':' :: ' ' :: (dumps v ++ (tailEncKV kvs2 ++ rest)) :=
      skipWs_not_ws (by decide) _
    simp only [hsw2]
    have hsw3 : skipWs (' ' :: (dumps v ++ (tailEncKV kvs2 ++ rest))) =
        dumps v ++ (tailEncKV kvs2 ++ rest) := by
      show skipWs (dumps v ++ (tailEncKV kvs2 ++ rest)) = _
      exact skipWs_dumps v _
    rw [hsw3, hv g (tailEncKV kvs2 ++ rest) hfacts.2.1 (numStop_tailEncKV kvs2 rest)]
    simp only [Option.some_bind]
    rw [skipWs_tailEncKV kvs2 rest, hkvs2 g rest hfacts.2.2 hstop]
    rfl

theorem parseVal_not_special {c : Char} (h1 : c ≠ 'n') (h2 : c ≠ 't') (h3 : c ≠ 'f')
    (h4 : c ≠ '"') (h5 : c ≠ '[') (h6 : c ≠ '{') (f : Nat) (t : List Char) :
    parseVal (f + 1) (c :: t) = parseNum (c :: t) := by
  simp only [parseVal]
  rw [if_neg h1, if_neg h2, if_neg h3, if_neg h4, if_neg h5, if_neg h6]

/-- Round trip of the value parser on serialized values: provided every
object carries distinct keys (true of all Python-dict-derived values),
parsing the serialization at sufficient fuel yields the value back and
consumes exactly its characters. -/
theorem parseVal_dumps : ∀ e : Json, nodupKeys e = true →
    ∀ f rest, jfuel e ≤ f → numStop rest = true →
    parseVal f (dumps e ++ rest) = some (e, rest) := by
  intro e
  induction e using Json.inductionOn with
  | null =>
    intro _ f rest hf hstop
    cases f with
    | zero => simp [jfuel] at hf
    | succ g => rfl
  | bool b =>
    intro _ f rest hf hstop
    cases f with
    | zero => simp [jfuel] at hf
    | succ g => cases b <;> rfl
  | num n =>
    intro _ f rest hf hstop
    cases f with
    | zero => simp [jfuel] at hf
    | succ g =>
    show parseVal (g + 1) (intChars n ++ rest) = some (.num n, rest)
    by_cases hn : n < 0
    · have hshape : intChars n ++ rest = '-' :: (natDigits (-n).toNat ++ rest) := by
        rw [intChars, if_pos hn, List.cons_append]
      rw [hshape, parseVal_not_special (by decide) (by decide) (by decide)
        (by decide) (by decide) (by decide) g _, ← hshape]
      exact parseNum_intChars n hstop
    · obtain ⟨d, ds, hds⟩ := List.exists_cons_of_ne_nil (natDigits_ne_nil n.toNat)
      have hd : isDig d = true := mem_natDigits_isDig n.toNat d
        (hds ▸ List.mem_cons_self d ds)
      have hshape : intChars n ++ rest = d :: (ds ++ rest) := by
        rw [intChars, if_neg hn, hds, List.cons_append]
      rw [hshape, parseVal_not_special (isDig_ne_of_out hd (by decide))
        (isDig_ne_of_out hd (by decide)) (isDig_ne_of_out hd (by decide))
        (isDig_ne_of_out hd (by decide)) (isDig_ne_of_out hd (by decide))
        (isDig_ne_of_out hd (by decide)) g _, ← hshape]
      exact parseNum_intChars n hstop
  | str s =>
    intro _ f rest hf hstop
    cases f with
    | zero => simp [jfuel] at hf
    | succ g =>
    have hshape : dumps (.str s) ++ rest = '"' :: (encChars s ++ '"' :: rest) := by
      show ('"' :: (encChars s ++ ['"'])) ++ rest = _
      simp [List.append_assoc]
    have hstep : parseVal (g + 1) ('"' :: (encChars s ++ '"' :: rest)) =
        (parseStrBody (g + 1) (encChars s ++ '"' :: rest)).map
          fun p => (Json.str p.1, p.2) := rfl
    have hlen : s.length < g + 1 := by simp only [jfuel] at hf; omega
    rw [hshape, hstep, parseStrBody_encChars s (g + 1) hlen rest]
    rfl
  | arr xs hmem =>
    intro hnd f rest hf hstop
    cases xs with
    | nil =>
      cases f with
      | zero => simp [jfuel, jfuelList] at hf
      | succ g => rfl
    | cons x xs2 =>
      cases f with
      | zero => simp [jfuel, jfuelList] at hf
      | succ g =>
      have hndx : nodupKeys x = true ∧ nodupKeysList xs2 = true := by
        simp only [nodupKeys, nodupKeysList, Bool.and_eq_true] at hnd
        exact hnd
      have hIHx := hmem x (List.mem_cons_self _ _) hndx.1
      have hIHlist : ∀ z ∈ xs2, ∀ f rest, jfuel z ≤ f → numStop rest = true →
          parseVal f (dumps z ++ rest) = some (z, rest) := fun z hz =>
        hmem z (List.mem_cons_of_mem _ hz) (nodupKeysList_mem hndx.2 z hz)
      have hfuel : jfuel x ≤ g ∧ jfuelList xs2 ≤ g := by
        simp only [jfuel, jfuelList] at hf
        omega
      have hshape : dumps (.arr (x :: xs2)) ++ rest =
          '[' :: (dumps x ++ (tailEnc xs2 ++ rest)) := by
        rw [dumps_arr_cons, List.cons_append, List.append_assoc]
      obtain ⟨d, ds, hds, hdc⟩ := dumps_head_cases x
      have hne := (dumps_head_ne_rbrack hds hdc).1
      have hsw : skipWs (dumps x ++ (tailEnc xs2 ++ rest)) =
          d :: (ds ++ (tailEnc xs2 ++ rest)) := by
        rw [skipWs_dumps, hds, List.cons_append]
      rw [hshape]
      simp only [parseVal, hsw]
      rw [if_neg hne]
      have hback : d :: (ds ++ (tailEnc xs2 ++ rest)) =
          dumps x ++ (tailEnc xs2 ++ rest) := by
        rw [hds, List.cons_append]
      rw [hback, hIHx g (tailEnc xs2 ++ rest) hfuel.1 (numStop_tailEnc xs2 rest)]
      simp only [Option.some_bind]
      rw [skipWs_tailEnc xs2 rest, parseElems_tail xs2 hIHlist g rest hfuel.2 hstop]
      rfl
  | obj kvs hmem =>
    intro hnd f rest hf hstop
    cases kvs with
    | nil =>
      cases f with
      | zero => simp [jfuel, jfuelKVs] at hf
      | succ g => rfl
    | cons kv kvs2 =>
      rcases kv with ⟨k, v⟩
      cases f with
      | zero => simp [jfuel, jfuelKVs] at hf
      | succ g =>
      have hnds : distinctKeys (((k, v) :: kvs2).map Prod.fst) = true ∧
          nodupKeys v = true ∧ nodupKeysKVs kvs2 = true := by
        simp only [nodupKeys, nodupKeysKVs, Bool.and_eq_true] at hnd
        exact ⟨hnd.1, hnd.2.1, hnd.2.2⟩
      have hIHv := hmem (k, v) (List.mem_cons_self _ _) hnds.2.1
      have hIHkvs : ∀ kv2 ∈ kvs2, ∀ f rest, jfuel kv2.2 ≤ f → numStop rest = true →
          parseVal f (dumps kv2.2 ++ rest) = some (kv2.2, rest) := fun kv2 hk2 =>
        hmem kv2 (List.mem_cons_of_mem _ hk2) (nodupKeysKVs_mem hnds.2.2 kv2 hk2)
      have hfacts : k.length < g + 1 ∧ jfuel v ≤ g ∧ jfuelKVs kvs2 ≤ g := by
        simp only [jfuel, jfuelKVs] at hf
        omega
      have hshape : dumps (.obj ((k, v) :: kvs2)) ++ rest =
          '{' :: ((memberChars (k, v) ++ tailEncKV kvs2) ++ rest) := by
        rw [dumps_obj_cons, List.cons_append]
      have hshape2 : (memberChars (k, v) ++ tailEncKV kvs2) ++ rest =
          '"' :: (encChars k ++ '"' :: ':' :: ' ' ::
            (dumps v ++ (tailEncKV kvs2 ++ rest))) := by
        simp [memberChars, encStr, List.append_assoc]
      have hsw : skipWs ((memberChars (k, v) ++ tailEncKV kvs2) ++ rest) =
          '"' :: (encChars k ++ '"' :: ':' :: ' ' ::
            (dumps v ++ (tailEncKV kvs2 ++ rest))) := by
        rw [hshape2]
        exact skipWs_not_ws (by decide) _
      rw [hshape]
      simp only [parseVal, hsw]
      rw [parseStrBody_encChars k (g + 1) hfacts.1
        (':' :: ' ' :: (dumps v ++ (tailEncKV kvs2 ++ rest)))]
      simp only [Option.some_bind]
      have hsw2 : skipWs (':' :: ' ' :: (dumps v ++ (tailEncKV kvs2 ++ rest))) =
          ':' :: ' ' :: (dumps v ++ (tailEncKV kvs2 ++ rest)) :=
        skipWs_not_ws (by decide) _
      simp only [hsw2]
      have hsw3 : skipWs (' ' :: (dumps v ++ (tailEncKV kvs2 ++ rest))) =
          dumps v ++ (tailEncKV kvs2 ++ rest) := by
        show skipWs (dumps v ++ (tailEncKV kvs2 ++ rest)) = _
        exact skipWs_dumps v _
      rw [hsw3, hIHv g (tailEncKV kvs2 ++ rest) hfacts.2.1
        (numStop_tailEncKV kvs2 rest)]
      simp only [Option.some_bind]
      rw [skipWs_tailEncKV kvs2 rest,
        parseMembers_tail kvs2 hIHkvs g rest hfacts.2.2 hstop]
      show some (Json.obj (buildDict ((k, v) :: kvs2)), rest) =
        some (Json.obj ((k, v) :: kvs2), rest)
      rw [buildDict_self hnds.1]

/-- The central serialization fact: `json.loads` is a left inverse of
`json.dumps` on every value whose objects, at any depth, have distinct
keys. -/
theorem loads_dumps {e : Json} (h : nodupKeys e = true) :
    loads (dumps e) = some e := by
  rw [loads]
  have hsw : skipWs (dumps e) = dumps e := by
    have := skipWs_dumps e []
    simpa using this
  have hfuel : jfuel e ≤ 2 * (dumps e).length + 2 := by
    have := jfuel_le e
    omega
  have hparse : parseVal (2 * (dumps e).length + 2) (dumps e ++ []) = some (e, []) :=
    parseVal_dumps e h _ [] hfuel rfl
  rw [hsw]
  rw [List.append_nil] at hparse
  rw [hparse]
  rfl

/-! ## `dumps` output contains no newline

`json.dumps` with default arguments escapes every control character, so a
serialized value never contains a raw newline character; newline-joined values
therefore split back into the individual serializations. -/

theorem no_nl_nil : ∀ d ∈ ([] : List Char), d ≠ '\n' := by
  intro d hd
  cases hd

theorem no_nl_cons {c : Char} (hc : c ≠ '\n') {l : List Char}
    (hl : ∀ d ∈ l, d ≠ '\n') : ∀ d ∈ c :: l, d ≠ '\n' := by
  intro d hd
  rcases List.mem_cons.mp hd with rfl | h
  · exact hc
  · exact hl d h

theorem no_nl_append {l1 l2 : List Char} (h1 : ∀ d ∈ l1, d ≠ '\n')
    (h2 : ∀ d ∈ l2, d ≠ '\n') : ∀ d ∈ l1 ++ l2, d ≠ '\n' := by
  intro d hd
  rcases List.mem_append.mp hd with h | h
  · exact h1 d h
  · exact h2 d h

theorem hexDigitChar_ne_nl : ∀ m : Nat, m < 16 → hexDigitChar m ≠ '\n' := by
  decide

theorem uEscape_no_nl (n : Nat) : ∀ d ∈ uEscape n, d ≠ '\n' :=
  no_nl_cons (by decide) (no_nl_cons (by decide)
    (no_nl_cons (hexDigitChar_ne_nl _ (Nat.mod_lt _ (by omega)))
      (no_nl_cons (hexDigitChar_ne_nl _ (Nat.mod_lt _ (by omega)))
        (no_nl_cons (hexDigitChar_ne_nl _ (Nat.mod_lt _ (by omega)))
          (no_nl_cons (hexDigitChar_ne_nl _ (Nat.mod_lt _ (by omega))) no_nl_nil)))))

theorem encChar_no_nl (c : Char) : ∀ d ∈ encChar c, d ≠ '\n' := by
  rw [encChar]
  split_ifs with h1 h2 h3 h4 h5 h6 h7 h8 h9
  · decide
  · decide
  · decide
  · decide
  · decide
  · decide
  · decide
  · exact uEscape_no_nl _
  · exact no_nl_append (uEscape_no_nl _) (uEscape_no_nl _)
  · refine no_nl_cons ?_ no_nl_nil
    intro he
    rw [he] at h8
    revert h8
    decide

theorem encChars_no_nl (s : List Char) : ∀ d ∈ encChars s, d ≠ '\n' := by
  induction s with
  | nil => exact no_nl_nil
  | cons c cs ih => exact no_nl_append (encChar_no_nl c) ih

theorem natDigits_no_nl (n : Nat) : ∀ d ∈ natDigits n, d ≠ '\n' := by
  intro d hd
  exact isDig_ne_of_out (mem_natDigits_isDig n d hd) (by decide)

theorem intChars_no_nl (n : Int) : ∀ d ∈ intChars n, d ≠ '\n' := by
  rw [intChars]
  split_ifs with hn
  · exact no_nl_cons (by decide) (natDigits_no_nl _)
  · exact natDigits_no_nl _

theorem dumps_no_nl : ∀ e : Json, ∀ d ∈ dumps e, d ≠ '\n' := by
  intro e
  induction e using Json.inductionOn with
  | null => decide
  | bool b => cases b <;> decide
  | num n => exact intChars_no_nl n
  | str s =>
    show ∀ d ∈ '"' :: (encChars s ++ ['"']), d ≠ '\n'
    exact no_nl_cons (by decide)
      (no_nl_append (encChars_no_nl s) (no_nl_cons (by decide) no_nl_nil))
  | arr xs hmem =>
    have htail : ∀ l : List Json, (∀ x ∈ l, ∀ d ∈ dumps x, d ≠ '\n') →
        ∀ d ∈ tailEnc l, d ≠ '\n' := by
      intro l
      induction l with
      | nil => intro _; exact no_nl_cons (by decide) no_nl_nil
      | cons y ys ih =>
        intro hl
        exact no_nl_cons (by decide) (no_nl_cons (by decide)
          (no_nl_append (hl y (List.mem_cons_self _ _))
            (ih fun x hx => hl x (List.mem_cons_of_mem _ hx))))
    cases xs with
    | nil =>
      have h : dumps (.arr []) = ['[', ']'] := rfl
      rw [h]
      decide
    | cons x xs2 =>
      rw [dumps_arr_cons]
      exact no_nl_cons (by decide)
        (no_nl_append (hmem x (List.mem_cons_self _ _))
          (htail xs2 fun z hz => hmem z (List.mem_cons_of_mem _ hz)))
  | obj kvs hmem =>
    have hmember : ∀ kv : List Char × Json, (∀ d ∈ dumps kv.2, d ≠ '\n') →
        ∀ d ∈ memberChars kv, d ≠ '\n' := by
      rintro ⟨k, v⟩ hv
      show ∀ d ∈ ('"' :: (encChars k ++ ['"'])) ++ ':' :: ' ' :: dumps v, d ≠ '\n'
      exact no_nl_append
        (no_nl_cons (by decide)
          (no_nl_append (encChars_no_nl k) (no_nl_cons (by decide) no_nl_nil)))
        (no_nl_cons (by decide) (no_nl_cons (by decide) hv))
    have htail : ∀ l : List (List Char × Json),
        (∀ kv ∈ l, ∀ d ∈ dumps kv.2, d ≠ '\n') →
        ∀ d ∈ tailEncKV l, d ≠ '\n' := by
      intro l
      induction l with
      | nil => intro _; exact no_nl_cons (by decide) no_nl_nil
      | cons kv kvs2 ih =>
        intro hl
        exact no_nl_cons (by decide) (no_nl_cons (by decide)
          (no_nl_append (hmember kv (hl kv (List.mem_cons_self _ _)))
            (ih fun x hx => hl x (List.mem_cons_of_mem _ hx))))
    cases kvs with
    | nil =>
      have h : dumps (.obj []) = ['{', '}'] := rfl
      rw [h]
      decide
    | cons kv kvs2 =>
      rw [dumps_obj_cons]
      exact no_nl_cons (by decide)
        (no_nl_append (hmember kv (hmem kv (List.mem_cons_self _ _)))
          (htail kvs2 fun z hz => hmem z (List.mem_cons_of_mem _ hz)))

/-! ## Newline-joined lines -/

/-- `"\n".join(...)` (the serialization of a batch, line 94 of the script). -/
def joinNl : List (List Char) → List Char
  | [] => []
  | [x] => x
  | x :: y :: xs => x ++ '\n' :: joinNl (y :: xs)

/-- Splitting text at every newline, Python `str.split("\n")` (spec side:
recovers the lines of an uploaded object body). -/
def splitNl : List Char → List (List Char)
  | [] => [[]]
  | c :: cs =>
    if c = '\n' then [] :: splitNl cs
    else
      match splitNl cs with
      | [] => [[c]]
      | l :: ls => (c :: l) :: ls

theorem splitNl_no_nl {p : List Char} (hp : ∀ d ∈ p, d ≠ '\n') :
    splitNl p = [p] := by
  induction p with
  | nil => rfl
  | cons c cs ih =>
    have hc : c ≠ '\n' := hp c (List.mem_cons_self _ _)
    have hcs := ih fun d hd => hp d (List.mem_cons_of_mem _ hd)
    simp only [splitNl, if_neg hc, hcs]

theorem splitNl_append_nl {p : List Char} (hp : ∀ d ∈ p, d ≠ '\n')
    (t : List Char) : splitNl (p ++ '\n' :: t) = p :: splitNl t := by
  induction p with
  | nil => simp [splitNl]
  | cons c cs ih =>
    have hc : c ≠ '\n' := hp c (List.mem_cons_self _ _)
    have hcs := ih fun d hd => hp d (List.mem_cons_of_mem _ hd)
    simp only [List.cons_append, splitNl, if_neg hc]
    rw [show cs.append ('\n' :: t) = cs ++ '\n' :: t from rfl, hcs]

theorem splitNl_joinNl : ∀ parts : List (List Char), parts ≠ [] →
    (∀ p ∈ parts, ∀ d ∈ p, d ≠ '\n') → splitNl (joinNl parts) = parts := by
  intro parts
  induction parts with
  | nil => intro h; exact absurd rfl h
  | cons x xs ih =>
    intro _ hnl
    cases xs with
    | nil =>
      show splitNl x = [x]
      exact splitNl_no_nl (hnl x (List.mem_cons_self _ _))
    | cons y ys =>
      show splitNl (x ++ '\n' :: joinNl (y :: ys)) = x :: y :: ys
      rw [splitNl_append_nl (hnl x (List.mem_cons_self _ _)),
        ih (by simp) fun p hp => hnl p (List.mem_cons_of_mem _ hp)]

theorem count_nl_joinNl : ∀ parts : List (List Char), parts ≠ [] →
    (∀ p ∈ parts, ∀ d ∈ p, d ≠ '\n') →
    (joinNl parts).count '\n' = parts.length - 1 := by
  intro parts
  induction parts with
  | nil => intro h; exact absurd rfl h
  | cons x xs ih =>
    intro _ hnl
    have hx : x.count '\n' = 0 := by
      rw [List.count_eq_zero]
      intro hmem
      exact hnl x (List.mem_cons_self _ _) '\n' hmem rfl
    cases xs with
    | nil => simpa [joinNl] using hx
    | cons y ys =>
      show (x ++ '\n' :: joinNl (y :: ys)).count '\n' = _
      rw [List.count_append, List.count_cons_self, hx,
        ih (by simp) fun p hp => hnl p (List.mem_cons_of_mem _ hp)]
      simp

/-! ## Wall-clock time and the object key (lines 89-92 of the script)

`datetime.utcnow()` is modelled as an oracle value attached to each
consumed message: the `DT` the clock would return if a flush is triggered
in that iteration.  `strftime` zero-pads `%m %d %H %M %S` to two digits
and `%Y` to four (CPython-documented behavior). -/

structure DT where
  year : Nat
  month : Nat
  day : Nat
  hour : Nat
  minute : Nat
  second : Nat
deriving DecidableEq

/-- The invariants `datetime` enforces on its fields. -/
def DT.Valid (t : DT) : Prop :=
  1 ≤ t.year ∧ t.year ≤ 9999 ∧ 1 ≤ t.month ∧ t.month ≤ 12 ∧
  1 ≤ t.day ∧ t.day ≤ 31 ∧ t.hour ≤ 23 ∧ t.minute ≤ 59 ∧ t.second ≤ 59

/-- Two-digit zero-padded decimal (`%m`, `%d`, `%H`, `%M`, `%S`). -/
def zfill2 (n : Nat) : List Char :=
  if n < 10 then '0' :: natDigits n else natDigits n

/-- Four-digit zero-padded decimal (`%Y`). -/
def zfill4 (n : Nat) : List Char :=
  if n < 10 then '0' :: '0' :: '0' :: natDigits n
  else if n < 100 then '0' :: '0' :: natDigits n
  else if n < 1000 then '0' :: natDigits n
  else natDigits n

/-- `now.strftime("date=%Y-%m-%d/hour=%H")` (line 90). -/
def date_path (t : DT) : String :=
  "date=" ++ String.mk (zfill4 t.year) ++ "-" ++ String.mk (zfill2 t.month) ++
    "-" ++ String.mk (zfill2 t.day) ++ "/hour=" ++ String.mk (zfill2 t.hour)

/-- `f"spotify_events_{now.strftime('%Y-%m-%dT%H-%M-%S')}.json"` (line 91). -/
def file_name (t : DT) : String :=
  "spotify_events_" ++ String.mk (zfill4 t.year) ++ "-" ++
    String.mk (zfill2 t.month) ++ "-" ++ String.mk (zfill2 t.day) ++ "T" ++
    String.mk (zfill2 t.hour) ++ "-" ++ String.mk (zfill2 t.minute) ++ "-" ++
    String.mk (zfill2 t.second) ++ ".json"

/-- `file_path = f"bronze/{date_path}/{file_name}"` (line 92). -/
def file_path (t : DT) : String :=
  "bronze/" ++ date_path t ++ "/" ++ file_name t

/-- The object-key format exactly as the spec words it:
`bronze/date=<YYYY-MM-DD>/hour=<HH>/spotify_events_<YYYY-MM-DDTHH-MM-SS>.json`,
every component derived from the UTC flush time. -/
def specObjectKey (t : DT) : String :=
  "bronze/date=" ++ String.mk (zfill4 t.year) ++ "-" ++
    String.mk (zfill2 t.month) ++ "-" ++ String.mk (zfill2 t.day) ++
    "/hour=" ++ String.mk (zfill2 t.hour) ++ "/spotify_events_" ++
    String.mk (zfill4 t.year) ++ "-" ++ String.mk (zfill2 t.month) ++ "-" ++
    String.mk (zfill2 t.day) ++ "T" ++ String.mk (zfill2 t.hour) ++ "-" ++
    String.mk (zfill2 t.minute) ++ "-" ++ String.mk (zfill2 t.second) ++ ".json"

/-! ## The consume-append-flush loop (lines 83-103 of the script) -/

/-- `json_data = "\n".join([json.dumps(e) for e in batch])` (line 94). -/
def json_data (batch : List Json) : List Char := joinNl (batch.map dumps)

/-- One `put_object` call as observed by the store, together with the batch
and the captured flush time it was built from. -/
structure Upload where
  key : String
  body : List Char
  events : List Json
  time : DT

/-- One consumed message together with the environment's behavior at that
iteration: the value `datetime.utcnow()` would return if a flush happens
now, and whether `put_object` would succeed. -/
structure Msg where
  event : Json
  now : DT
  putOk : Bool

/-- The loop state: the in-memory batch and the objects successfully
written so far. -/
structure ConsumerState where
  batch : List Json
  uploads : List Upload

/-- The flush: build the partition key from the captured time, serialize
the batch as newline-delimited JSON, write one object (lines 88-100). -/
def mkUpload (t : DT) (batch : List Json) : Upload :=
  ⟨file_path t, json_data batch, batch, t⟩

/-- One iteration of `for message in consumer` (lines 83-103): append the
event, and when `len(batch) >= BATCH_SIZE` flush.  A failing `put_object`
raises: the exception propagates (`Except.error`), the batch having been
appended to but not cleared. -/
def step (B : Int) (s : ConsumerState) (m : Msg) :
    Except ConsumerState ConsumerState :=
  let batch := s.batch ++ [m.event]
  if B ≤ (batch.length : Int) then
    if m.putOk then Except.ok ⟨[], s.uploads ++ [mkUpload m.now batch]⟩
    else Except.error ⟨batch, s.uploads⟩
  else Except.ok ⟨batch, s.uploads⟩

/-- The consume loop over a finite stream of messages; an uncaught
exception terminates the loop with the state at the failure point. -/
def run (B : Int) (s : ConsumerState) :
    List Msg → Except ConsumerState ConsumerState
  | [] => Except.ok s
  | m :: ms =>
    match step B s m with
    | Except.ok s2 => run B s2 ms
    | Except.error s2 => Except.error s2

/-- `batch = []` before the loop starts (line 83). -/
def startState : ConsumerState := ⟨[], []⟩

/-! ## Full chunks of a list (spec-side, for the flush-count property) -/

/-- The consecutive full chunks of size `B` (fuel-indexed helper). -/
def chunksOfF (B : Nat) : Nat → List Json → List (List Json)
  | 0, _ => []
  | fuel + 1, l =>
    if 1 ≤ B ∧ B ≤ l.length then l.take B :: chunksOfF B fuel (l.drop B)
    else []

/-- The consecutive full chunks of size `B` of a list. -/
def chunksOf (B : Nat) (l : List Json) : List (List Json) :=
  chunksOfF B l.length l

/-- What remains after removing the full chunks (fuel-indexed helper). -/
def remOfF (B : Nat) : Nat → List Json → List Json
  | 0, l => l
  | fuel + 1, l =>
    if 1 ≤ B ∧ B ≤ l.length then remOfF B fuel (l.drop B) else l

/-- What remains after removing the full chunks of size `B`. -/
def remOf (B : Nat) (l : List Json) : List Json := remOfF B l.length l

theorem chunksOfF_irrel (B : Nat) : ∀ fuel1 : Nat, ∀ (l : List Json) (fuel2 : Nat),
    l.length ≤ fuel1 → l.length ≤ fuel2 →
    chunksOfF B fuel1 l = chunksOfF B fuel2 l := by
  intro fuel1
  induction fuel1 with
  | zero =>
    intro l fuel2 h1 h2
    have hl : l = [] := List.eq_nil_of_length_eq_zero (by omega)
    subst hl
    cases fuel2 with
    | zero => rfl
    | succ g =>
      show [] = if 1 ≤ B ∧ B ≤ ([] : List Json).length then _ else []
      rw [if_neg (by rw [List.length_nil]; omega)]
  | succ f ih =>
    intro l fuel2 h1 h2
    cases fuel2 with
    | zero =>
      have hl : l = [] := List.eq_nil_of_length_eq_zero (by omega)
      subst hl
      show (if 1 ≤ B ∧ B ≤ ([] : List Json).length then _ else []) = []
      rw [if_neg (by rw [List.length_nil]; omega)]
    | succ g =>
      show (if 1 ≤ B ∧ B ≤ l.length then l.take B :: chunksOfF B f (l.drop B) else []) =
        (if 1 ≤ B ∧ B ≤ l.length then l.take B :: chunksOfF B g (l.drop B) else [])
      by_cases hc : 1 ≤ B ∧ B ≤ l.length
      · rw [if_pos hc, if_pos hc,
          ih (l.drop B) g (by rw [List.length_drop]; omega) (by rw [List.length_drop]; omega)]
      · rw [if_neg hc, if_neg hc]

theorem remOfF_irrel (B : Nat) : ∀ fuel1 : Nat, ∀ (l : List Json) (fuel2 : Nat),
    l.length ≤ fuel1 → l.length ≤ fuel2 →
    remOfF B fuel1 l = remOfF B fuel2 l := by
  intro fuel1
  induction fuel1 with
  | zero =>
    intro l fuel2 h1 h2
    have hl : l = [] := List.eq_nil_of_length_eq_zero (by omega)
    subst hl
    cases fuel2 with
    | zero => rfl
    | succ g =>
      show [] = if 1 ≤ B ∧ B ≤ ([] : List Json).length then _ else []
      rw [if_neg (by rw [List.length_nil]; omega)]
  | succ f ih =>
    intro l fuel2 h1 h2
    cases fuel2 with
    | zero =>
      have hl : l = [] := List.eq_nil_of_length_eq_zero (by omega)
      subst hl
      show (if 1 ≤ B ∧ B ≤ ([] : List Json).length then _ else []) = []
      rw [if_neg (by rw [List.length_nil]; omega)]
    | succ g =>
      show (if 1 ≤ B ∧ B ≤ l.length then remOfF B f (l.drop B) else l) =
        (if 1 ≤ B ∧ B ≤ l.length then remOfF B g (l.drop B) else l)
      by_cases hc : 1 ≤ B ∧ B ≤ l.length
      · rw [if_pos hc, if_pos hc,
          ih (l.drop B) g (by rw [List.length_drop]; omega) (by rw [List.length_drop]; omega)]
      · rw [if_neg hc, if_neg hc]

theorem chunksOf_eq (B : Nat) (l : List Json) :
    chunksOf B l =
      if 1 ≤ B ∧ B ≤ l.length then l.take B :: chunksOf B (l.drop B) else [] := by
  rcases Nat.eq_zero_or_pos l.length with h0 | hpos
  · rw [chunksOf, h0]
    show ([] : List (List Json)) = _
    rw [if_neg (by omega)]
  · have hfuel : l.length = (l.length - 1) + 1 := by omega
    rw [chunksOf]
    conv_lhs => rw [hfuel]
    show (if 1 ≤ B ∧ B ≤ l.length then l.take B :: chunksOfF B (l.length - 1) (l.drop B)
      else []) = _
    by_cases hc : 1 ≤ B ∧ B ≤ l.length
    · rw [if_pos hc, if_pos hc, chunksOf,
        chunksOfF_irrel B (l.length - 1) (l.drop B) (l.drop B).length
          (by rw [List.length_drop]; omega) le_rfl]
    · rw [if_neg hc, if_neg hc]

theorem remOf_eq (B : Nat) (l : List Json) :
    remOf B l = if 1 ≤ B ∧ B ≤ l.length then remOf B (l.drop B) else l := by
  rcases Nat.eq_zero_or_pos l.length with h0 | hpos
  · rw [remOf, h0]
    show remOfF B 0 l = _
    rw [if_neg (by omega)]
    rfl
  · have hfuel : l.length = (l.length - 1) + 1 := by omega
    rw [remOf]
    conv_lhs => rw [hfuel]
    show (if 1 ≤ B ∧ B ≤ l.length then remOfF B (l.length - 1) (l.drop B) else l) = _
    by_cases hc : 1 ≤ B ∧ B ≤ l.length
    · rw [if_pos hc, if_pos hc, remOf,
        remOfF_irrel B (l.length - 1) (l.drop B) (l.drop B).length
          (by rw [List.length_drop]; omega) le_rfl]
    · rw [if_neg hc, if_neg hc]

theorem chunksOf_small {B : Nat} {l : List Json} (h : l.length < B) :
    chunksOf B l = [] := by
  rw [chunksOf_eq, if_neg (by omega)]

theorem remOf_small {B : Nat} {l : List Json} (h : l.length < B) :
    remOf B l = l := by
  rw [remOf_eq, if_neg (by omega)]

theorem chunksOf_chunk {B : Nat} (hB : 1 ≤ B) {l1 : List Json}
    (h : l1.length = B) (l2 : List Json) :
    chunksOf B (l1 ++ l2) = l1 :: chunksOf B l2 := by
  rw [chunksOf_eq, if_pos (by rw [List.length_append]; omega)]
  subst h
  rw [List.take_left, List.drop_left]

theorem remOf_chunk {B : Nat} (hB : 1 ≤ B) {l1 : List Json}
    (h : l1.length = B) (l2 : List Json) :
    remOf B (l1 ++ l2) = remOf B l2 := by
  rw [remOf_eq, if_pos (by rw [List.length_append]; omega)]
  subst h
  rw [List.drop_left]

theorem chunksOf_length {B : Nat} (hB : 1 ≤ B) : ∀ n, ∀ l : List Json,
    l.length ≤ n → (chunksOf B l).length = l.length / B := by
  intro n
  induction n with
  | zero =>
    intro l h
    have hl : l = [] := List.eq_nil_of_length_eq_zero (by omega)
    subst hl
    simp [chunksOf_small (by omega : ([] : List Json).length < B), Nat.div_eq_of_lt]
  | succ k ih =>
    intro l h
    rw [chunksOf_eq]
    by_cases hc : 1 ≤ B ∧ B ≤ l.length
    · rw [if_pos hc, List.length_cons,
        ih (l.drop B) (by rw [List.length_drop]; omega), List.length_drop]
      rw [Nat.div_eq l.length B, if_pos ⟨by omega, hc.2⟩]
    · rw [if_neg hc]
      have : l.length < B := by omega
      rw [List.length_nil, Nat.div_eq_of_lt this]

theorem chunksOf_get {B : Nat} (hB : 1 ≤ B) : ∀ n, ∀ l : List Json,
    l.length ≤ n → ∀ i, i < l.length / B →
    (chunksOf B l).get? i = some ((l.drop (i * B)).take B) := by
  intro n
  induction n with
  | zero =>
    intro l h i hi
    have hl : l = [] := List.eq_nil_of_length_eq_zero (by omega)
    subst hl
    simp [Nat.div_eq_of_lt (by omega : ([] : List Json).length < B)] at hi
  | succ k ih =>
    intro l h i hi
    have hc : B ≤ l.length := by
      by_contra hcon
      rw [Nat.div_eq_of_lt (by omega)] at hi
      omega
    rw [chunksOf_eq, if_pos ⟨hB, hc⟩]
    cases i with
    | zero => simp
    | succ j =>
      have hj : j < (l.drop B).length / B := by
        rw [List.length_drop]
        rw [Nat.div_eq l.length B, if_pos ⟨by omega, hc⟩] at hi
        omega
      rw [List.get?_cons_succ, ih (l.drop B) (by rw [List.length_drop]; omega) j hj,
        List.drop_drop, Nat.succ_mul, Nat.add_comm]

theorem remOf_eq_drop {B : Nat} (hB : 1 ≤ B) : ∀ n, ∀ l : List Json,
    l.length ≤ n → remOf B l = l.drop (l.length / B * B) := by
  intro n
  induction n with
  | zero =>
    intro l h
    have hl : l = [] := List.eq_nil_of_length_eq_zero (by omega)
    subst hl
    simp [remOf_small (by omega : ([] : List Json).length < B)]
  | succ k ih =>
    intro l h
    rw [remOf_eq]
    by_cases hc : 1 ≤ B ∧ B ≤ l.length
    · rw [if_pos hc, ih (l.drop B) (by rw [List.length_drop]; omega),
        List.drop_drop, List.length_drop]
      congr 1
      rw [Nat.div_eq l.length B, if_pos ⟨by omega, hc.2⟩, Nat.succ_mul]
      omega
    · rw [if_neg hc]
      have : l.length < B := by omega
      rw [Nat.div_eq_of_lt this]
      simp

theorem remOf_length {B : Nat} (hB : 1 ≤ B) (l : List Json) :
    (remOf B l).length = l.length % B := by
  rw [remOf_eq_drop hB l.length l le_rfl, List.length_drop]
  have h1 : B * (l.length / B) + l.length % B = l.length := Nat.div_add_mod _ _
  have h2 : l.length / B * B = B * (l.length / B) := Nat.mul_comm _ _
  have h3 : l.length % B < B := Nat.mod_lt _ (by omega)
  omega

theorem remOf_length_lt {B : Nat} (hB : 1 ≤ B) (l : List Json) :
    (remOf B l).length < B := by
  rw [remOf_length hB l]
  exact Nat.mod_lt _ (by omega)

/-! ## Characterization of the loop -/

theorem run_append (B : Int) (s : ConsumerState) (l1 l2 : List Msg) :
    run B s (l1 ++ l2) =
      match run B s l1 with
      | Except.ok s1 => run B s1 l2
      | Except.error e => Except.error e := by
  induction l1 generalizing s with
  | nil => rfl
  | cons m ms ih =>
    cases hstep : step B s m with
    | ok s2 =>
      have h1 : run B s (m :: (ms ++ l2)) = run B s2 (ms ++ l2) := by
        rw [run, hstep]
      have h2 : run B s (m :: ms) = run B s2 ms := by
        rw [run, hstep]
      show run B s (m :: (ms ++ l2)) = _
      rw [h1, h2]
      exact ih s2
    | error s2 =>
      have h1 : run B s (m :: (ms ++ l2)) = Except.error s2 := by
        rw [run, hstep]
      have h2 : run B s (m :: ms) = Except.error s2 := by
        rw [run, hstep]
      show run B s (m :: (ms ++ l2)) = _
      rw [h1, h2]

/-- Full characterization of an error-free run from a partially filled
batch: the uploads are exactly the full chunks of the event stream, in
order, and the final batch holds the remainder.  Every upload that was not
already present was built by `mkUpload` from a batch of exactly `B` events
and the clock value of the message that triggered it. -/
theorem run_ok (B : Nat) (hB : 1 ≤ B) : ∀ (ms : List Msg) (p : List Json)
    (ups : List Upload), p.length < B → (∀ m ∈ ms, m.putOk = true) →
    ∃ s2 : ConsumerState,
      run (B : Int) ⟨p, ups⟩ ms = Except.ok s2 ∧
      s2.batch = remOf B (p ++ ms.map Msg.event) ∧
      s2.uploads.map Upload.events =
        ups.map Upload.events ++ chunksOf B (p ++ ms.map Msg.event) ∧
      (∀ u ∈ s2.uploads, u ∈ ups ∨
        (u.body = json_data u.events ∧ u.key = file_path u.time ∧
          u.events.length = B ∧ ∃ m ∈ ms, u.time = m.now)) := by
  intro ms
  induction ms with
  | nil =>
    intro p ups hp _
    refine ⟨⟨p, ups⟩, rfl, ?_, ?_, ?_⟩
    · rw [List.map_nil, List.append_nil, remOf_small hp]
    · rw [List.map_nil, List.append_nil, chunksOf_small hp, List.append_nil]
    · intro u hu
      exact Or.inl hu
  | cons m ms ih =>
    intro p ups hp hok
    have hmok : m.putOk = true := hok m (List.mem_cons_self _ _)
    have hok2 : ∀ x ∈ ms, x.putOk = true :=
      fun x hx => hok x (List.mem_cons_of_mem _ hx)
    have ha : p ++ (m :: ms).map Msg.event = (p ++ [m.event]) ++ ms.map Msg.event := by
      simp
    by_cases hc : B ≤ p.length + 1
    · have hlen : (p ++ [m.event]).length = B := by
        rw [List.length_append, List.length_singleton]
        omega
      have hcond : (B : Int) ≤ ((p ++ [m.event]).length : Int) := by
        rw [hlen]
      have hs : step (B : Int) ⟨p, ups⟩ m =
          Except.ok ⟨[], ups ++ [mkUpload m.now (p ++ [m.event])]⟩ := by
        simp only [step]
        rw [if_pos hcond, hmok]
        rfl
      obtain ⟨s2, hrun, hbatch, hups, hinv⟩ :=
        ih [] (ups ++ [mkUpload m.now (p ++ [m.event])])
          (by rw [List.length_nil]; omega) hok2
      have hrun2 : run (B : Int) ⟨p, ups⟩ (m :: ms) = Except.ok s2 := by
        rw [run, hs]
        exact hrun
      refine ⟨s2, hrun2, ?_, ?_, ?_⟩
      · rw [hbatch, List.nil_append, ha, remOf_chunk hB hlen]
      · rw [hups, List.nil_append, ha, chunksOf_chunk hB hlen, List.map_append]
        show (ups.map Upload.events ++ [p ++ [m.event]]) ++ chunksOf B (ms.map Msg.event) = _
        rw [List.append_assoc]
        rfl
      · intro u hu
        rcases hinv u hu with hin | hnew
        · rcases List.mem_append.mp hin with hin2 | hin2
          · exact Or.inl hin2
          · rcases List.mem_singleton.mp hin2 with rfl
            exact Or.inr ⟨rfl, rfl, hlen, m, List.mem_cons_self _ _, rfl⟩
        · refine Or.inr ⟨hnew.1, hnew.2.1, hnew.2.2.1, ?_⟩
          obtain ⟨m2, hm2, hm2t⟩ := hnew.2.2.2
          exact ⟨m2, List.mem_cons_of_mem _ hm2, hm2t⟩
    · have hcond : ¬(B : Int) ≤ ((p ++ [m.event]).length : Int) := by
        rw [List.length_append, List.length_singleton]
        exact_mod_cast hc
      have hs : step (B : Int) ⟨p, ups⟩ m =
          Except.ok ⟨p ++ [m.event], ups⟩ := by
        simp only [step]
        rw [if_neg hcond]
      obtain ⟨s2, hrun, hbatch, hups, hinv⟩ :=
        ih (p ++ [m.event]) ups
          (by rw [List.length_append, List.length_singleton]; omega) hok2
      have hrun2 : run (B : Int) ⟨p, ups⟩ (m :: ms) = Except.ok s2 := by
        rw [run, hs]
        exact hrun
      refine ⟨s2, hrun2, ?_, ?_, ?_⟩
      · rw [hbatch, ha]
      · rw [hups, ha]
      · intro u hu
        rcases hinv u hu with hin | hnew
        · exact Or.inl hin
        · refine Or.inr ⟨hnew.1, hnew.2.1, hnew.2.2.1, ?_⟩
          obtain ⟨m2, hm2, hm2t⟩ := hnew.2.2.2
          exact ⟨m2, List.mem_cons_of_mem _ hm2, hm2t⟩

/-! ## Startup: `BATCH_SIZE` parsing, validation, bucket check (lines 31-81)

The environment is a partial map from variable names to strings.  The
startup sequence is modelled together with the trace of calls it issues to
the store and the topic client, so that "fails before any client is
created" is the statement that the trace is empty. -/

/-- The keys of `required_vars` (lines 41-49), in dict insertion order. -/
def requiredVarNames : List String :=
  ["MINIO_BUCKET", "MINIO_ENDPOINT", "MINIO_ACCESS_KEY", "MINIO_SECRET_KEY",
   "KAFKA_TOPIC", "KAFKA_BOOTSTRAP_SERVER", "KAFKA_GROUP_ID"]

/-- Python whitespace stripped by `int(str)`. -/
def isPyWs (c : Char) : Bool :=
  c = ' ' || c = '\t' || c = '\n' || c = '\r' || c = '\x0b' || c = '\x0c'

/-- `str.strip()` as performed by `int`. -/
def pyStrip (s : List Char) : List Char :=
  ((s.dropWhile isPyWs).reverse.dropWhile isPyWs).reverse

/-- Digit run with single underscores allowed between digits. -/
def pyDigitsGo : Nat → List Char → Option Nat
  | acc, [] => some acc
  | acc, '_' :: c :: rest =>
    if isDig c then pyDigitsGo (10 * acc + (c.toNat - 48)) rest else none
  | _, ['_'] => none
  | acc, c :: rest =>
    if isDig c then pyDigitsGo (10 * acc + (c.toNat - 48)) rest else none

/-- Nonempty digit run (underscores only between digits). -/
def pyDigits : List Char → Option Nat
  | [] => none
  | c :: rest => if isDig c then pyDigitsGo (c.toNat - 48) rest else none

/-- Model of Python `int(str)` in base 10: optional surrounding whitespace,
optional single sign, then digits with single underscores between digits;
anything else raises `ValueError` (`none`). -/
def pyInt (s : String) : Option Int :=
  match pyStrip s.data with
  | '+' :: rest => (pyDigits rest).map fun n => (n : Int)
  | '-' :: rest => (pyDigits rest).map fun n => -(n : Int)
  | cs => (pyDigits cs).map fun n => (n : Int)

/-- Calls the startup sequence issues to external services. -/
inductive Action where
  | headBucket : Action
  | createBucket : Action
  | createConsumer : Action
deriving DecidableEq

/-- The two startup failures: `ValueError` from `int(...)` on line 38, and
the aggregated missing-variable `ValueError` on line 53. -/
inductive StartupError where
  | invalidBatchSize (raw : String) : StartupError
  | missingEnv (msg : String) : StartupError
deriving DecidableEq

/-- `missing_vars = [var for var, value in required_vars.items() if value is
None]` (line 51). -/
def missing_vars (env : String → Option String) : List String :=
  requiredVarNames.filter fun v => (env v).isNone

/-- Lines 51-81 after `BATCH_SIZE` was computed: aggregate validation, then
the store client with its check-then-create bucket logic (`headBucketOk`
says whether `head_bucket` succeeds; per line 67 any exception at all is
treated as "bucket does not exist"), then the consumer construction. -/
def startupValidate (env : String → Option String) (headBucketOk : Bool)
    (b : Int) : List Action × Except StartupError Int :=
  if (missing_vars env).isEmpty then
    ([Action.headBucket] ++ (if headBucketOk then [] else [Action.createBucket]) ++
      [Action.createConsumer], Except.ok b)
  else
    ([], Except.error (.missingEnv ("Missing required environment variables: " ++
      String.intercalate ", " (missing_vars env))))

/-- The whole startup section in source order:
`BATCH_SIZE = int(os.getenv("BATCH_SIZE", 10))` (line 38, which raises
before the required-variable validation if the value does not parse), then
`startupValidate`. -/
def startup (env : String → Option String) (headBucketOk : Bool) :
    List Action × Except StartupError Int :=
  match env "BATCH_SIZE" with
  | some raw =>
    match pyInt raw with
    | none => ([], Except.error (.invalidBatchSize raw))
    | some b => startupValidate env headBucketOk b
  | none => startupValidate env headBucketOk 10

/-! ## Facts about the zero-padded time components -/

theorem natDigits_len1 {n : Nat} (h : n < 10) : (natDigits n).length = 1 := by
  rw [natDigits_eq, if_pos h, List.length_singleton]

theorem natDigits_len2 {n : Nat} (h1 : 10 ≤ n) (h2 : n < 100) :
    (natDigits n).length = 2 := by
  rw [natDigits_eq, if_neg (by omega), List.length_append,
    natDigits_len1 (by omega), List.length_singleton]

theorem natDigits_len3 {n : Nat} (h1 : 100 ≤ n) (h2 : n < 1000) :
    (natDigits n).length = 3 := by
  rw [natDigits_eq, if_neg (by omega), List.length_append,
    natDigits_len2 (by omega) (by omega), List.length_singleton]

theorem natDigits_len4 {n : Nat} (h1 : 1000 ≤ n) (h2 : n < 10000) :
    (natDigits n).length = 4 := by
  rw [natDigits_eq, if_neg (by omega), List.length_append,
    natDigits_len3 (by omega) (by omega), List.length_singleton]

theorem digitsVal_cons_zero (l : List Char) : digitsVal ('0' :: l) = digitsVal l := rfl

theorem zfill2_length {n : Nat} (h : n ≤ 99) : (zfill2 n).length = 2 := by
  rw [zfill2]
  by_cases h10 : n < 10
  · rw [if_pos h10, List.length_cons, natDigits_len1 h10]
  · rw [if_neg h10, natDigits_len2 (by omega) (by omega)]

theorem zfill2_val (n : Nat) : digitsVal (zfill2 n) = n := by
  rw [zfill2]
  by_cases h10 : n < 10
  · rw [if_pos h10, digitsVal_cons_zero, digitsVal_natDigits]
  · rw [if_neg h10, digitsVal_natDigits]

theorem zfill2_digits (n : Nat) : ∀ c ∈ zfill2 n, isDig c = true := by
  rw [zfill2]
  by_cases h10 : n < 10 <;> [rw [if_pos h10]; rw [if_neg h10]]
  · intro c hc
    rcases List.mem_cons.mp hc with rfl | hc2
    · decide
    · exact mem_natDigits_isDig _ c hc2
  · exact mem_natDigits_isDig _

theorem zfill4_length {n : Nat} (h : n ≤ 9999) : (zfill4 n).length = 4 := by
  rw [zfill4]
  by_cases h10 : n < 10
  · rw [if_pos h10]
    simp [natDigits_len1 h10]
  · rw [if_neg h10]
    by_cases h100 : n < 100
    · rw [if_pos h100]
      simp [natDigits_len2 (by omega) h100]
    · rw [if_neg h100]
      by_cases h1000 : n < 1000
      · rw [if_pos h1000]
        simp [natDigits_len3 (by omega) h1000]
      · rw [if_neg h1000, natDigits_len4 (by omega) (by omega)]

theorem zfill4_val (n : Nat) : digitsVal (zfill4 n) = n := by
  rw [zfill4]
  by_cases h10 : n < 10
  · rw [if_pos h10]
    show digitsVal ('0' :: '0' :: '0' :: natDigits n) = n
    rw [digitsVal_cons_zero, digitsVal_cons_zero, digitsVal_cons_zero,
      digitsVal_natDigits]
  · rw [if_neg h10]
    by_cases h100 : n < 100
    · rw [if_pos h100]
      show digitsVal ('0' :: '0' :: natDigits n) = n
      rw [digitsVal_cons_zero, digitsVal_cons_zero, digitsVal_natDigits]
    · rw [if_neg h100]
      by_cases h1000 : n < 1000
      · rw [if_pos h1000, digitsVal_cons_zero, digitsVal_natDigits]
      · rw [if_neg h1000, digitsVal_natDigits]

theorem string_data_append (a b : String) : (a ++ b).data = a.data ++ b.data := rfl

/-- The source-built object key (line 92) is character-for-character the
format the spec prescribes. -/
theorem file_path_eq_spec (t : DT) : file_path t = specObjectKey t := by
  apply String.ext
  rw [file_path, date_path, file_name, specObjectKey]
  simp only [string_data_append, List.append_assoc]
  rw [← List.append_assoc "bronze/".data "date=".data,
    show "bronze/".data ++ "date=".data = "bronze/date=".data by decide]
  simp only [List.append_assoc]
  rw [← List.append_assoc "/".data "spotify_events_".data,
    show "/".data ++ "spotify_events_".data = "/spotify_events_".data by decide]

/-! ## `loads` only produces objects with distinct keys

A Python dict cannot hold two equal keys, so every value the deserializer
hands to the loop satisfies `nodupKeys`. -/

theorem insertKey_keys (l : List (List Char × Json)) (k : List Char) (v : Json) :
    (insertKey l k v).map Prod.fst =
      if (l.map Prod.fst).contains k then l.map Prod.fst
      else l.map Prod.fst ++ [k] := by
  rw [insertKey]
  by_cases hc : (l.map Prod.fst).contains k = true
  · rw [if_pos hc, if_pos hc, List.map_map]
    apply List.map_congr_left
    intro kv _
    by_cases hk : kv.1 = k
    · simp [hk]
    · simp [hk]
  · rw [if_neg hc, if_neg hc, List.map_append]
    rfl

theorem mem_insertKey {l : List (List Char × Json)} {k : List Char} {v : Json}
    {kv : List Char × Json} (h : kv ∈ insertKey l k v) : kv ∈ l ∨ kv = (k, v) := by
  rw [insertKey] at h
  by_cases hc : (l.map Prod.fst).contains k = true
  · rw [if_pos hc] at h
    obtain ⟨kv2, hkv2, heq⟩ := List.mem_map.mp h
    by_cases hk : kv2.1 = k
    · right
      rw [← heq, if_pos hk]
    · left
      rw [← heq, if_neg hk]
      exact hkv2
  · rw [if_neg hc] at h
    rcases List.mem_append.mp h with h2 | h2
    · exact Or.inl h2
    · exact Or.inr (List.mem_singleton.mp h2)

theorem distinctKeys_insertKey {l : List (List Char × Json)}
    (hd : distinctKeys (l.map Prod.fst) = true) (k : List Char) (v : Json) :
    distinctKeys ((insertKey l k v).map Prod.fst) = true := by
  rw [insertKey_keys]
  by_cases hc : (l.map Prod.fst).contains k = true
  · rw [if_pos hc]
    exact hd
  · rw [if_neg hc]
    rw [distinctKeys_nodup] at hd ⊢
    rw [List.nodup_append]
    refine ⟨hd, List.nodup_singleton _, ?_⟩
    intro x hx hxk
    rcases List.mem_singleton.mp hxk with rfl
    exact hc (List.elem_iff.mpr hx)

theorem buildDict_inv (pairs : List (List Char × Json)) :
    ∀ acc : List (List Char × Json), distinctKeys (acc.map Prod.fst) = true →
    distinctKeys (((pairs.foldl (fun l kv => insertKey l kv.1 kv.2) acc).map
      Prod.fst)) = true ∧
    ∀ kv ∈ pairs.foldl (fun l kv => insertKey l kv.1 kv.2) acc,
      kv ∈ acc ∨ kv ∈ pairs := by
  induction pairs with
  | nil =>
    intro acc h
    exact ⟨h, fun kv hkv => Or.inl hkv⟩
  | cons kv2 rest ih =>
    intro acc h
    obtain ⟨h1, h2⟩ := ih (insertKey acc kv2.1 kv2.2) (distinctKeys_insertKey h _ _)
    refine ⟨h1, ?_⟩
    intro kv hkv
    rcases h2 kv hkv with hin | hin
    · rcases mem_insertKey hin with hin2 | heq
      · exact Or.inl hin2
      · right
        rw [heq]
        exact List.mem_cons_self _ _
    · exact Or.inr (List.mem_cons_of_mem _ hin)

theorem buildDict_distinct (pairs : List (List Char × Json)) :
    distinctKeys ((buildDict pairs).map Prod.fst) = true :=
  (buildDict_inv pairs [] rfl).1

theorem mem_buildDict {pairs : List (List Char × Json)}
    {kv : List Char × Json} (h : kv ∈ buildDict pairs) : kv ∈ pairs := by
  rcases (buildDict_inv pairs [] rfl).2 kv h with h2 | h2
  · cases h2
  · exact h2

theorem nodupKeysList_of_mem : ∀ {xs : List Json},
    (∀ x ∈ xs, nodupKeys x = true) → nodupKeysList xs = true := by
  intro xs
  induction xs with
  | nil => intro _; rfl
  | cons y ys ih =>
    intro h
    show (nodupKeys y && nodupKeysList ys) = true
    rw [h y (List.mem_cons_self _ _), ih fun x hx => h x (List.mem_cons_of_mem _ hx)]
    rfl

theorem nodupKeysKVs_of_mem : ∀ {kvs : List (List Char × Json)},
    (∀ kv ∈ kvs, nodupKeys kv.2 = true) → nodupKeysKVs kvs = true := by
  intro kvs
  induction kvs with
  | nil => intro _; rfl
  | cons kv kvs2 ih =>
    intro h
    rcases kv with ⟨k, v⟩
    show (nodupKeys v && nodupKeysKVs kvs2) = true
    rw [h (k, v) (List.mem_cons_self _ _),
      ih fun x hx => h x (List.mem_cons_of_mem _ hx)]
    rfl

theorem parseNum_shape {s : List Char} {v : Json} {r : List Char}
    (h : parseNum s = some (v, r)) : ∃ n : Int, v = .num n := by
  cases s with
  | nil => cases h
  | cons c rest =>
    rw [parseNum] at h
    by_cases hc : c = '-'
    · rw [if_pos hc] at h
      obtain ⟨p, -, heq⟩ := Option.map_eq_some'.mp h
      exact ⟨-(p.1 : Int), (Prod.mk.injEq _ _ _ _ ▸ heq).1.symm⟩
    · rw [if_neg hc] at h
      obtain ⟨p, -, heq⟩ := Option.map_eq_some'.mp h
      exact ⟨(p.1 : Int), (Prod.mk.injEq _ _ _ _ ▸ heq).1.symm⟩

/-! one-step unfolding equations for the value parsers -/

theorem parseVal_cons_eq (g : Nat) (c : Char) (rest : List Char) :
    parseVal (g + 1) (c :: rest) =
      (if c = 'n' then
        match rest with
        | 'u' :: 'l' :: 'l' :: r => some (.null, r)
        | _ => none
      else if c = 't' then
        match rest with
        | 'r' :: 'u' :: 'e' :: r => some (.bool true, r)
        | _ => none
      else if c = 'f' then
        match rest with
        | 'a' :: 'l' :: 's' :: 'e' :: r => some (.bool false, r)
        | _ => none
      else if c = '"' then
        (parseStrBody (g + 1) rest).map fun p => (.str p.1, p.2)
      else if c = '[' then
        match skipWs rest with
        | [] => none
        | d :: r =>
          if d = ']' then some (.arr [], r)
          else
            (parseVal g (d :: r)).bind fun q =>
              (parseElems g (skipWs q.2)).map fun p => (.arr (q.1 :: p.1), p.2)
      else if c = '{' then
        match skipWs rest with
        | [] => none
        | d :: r =>
          if d = '}' then some (.obj [], r)
          else if d = '"' then
            (parseStrBody (g + 1) r).bind fun pk =>
              match skipWs pk.2 with
              | [] => none
              | e :: r2 =>
                if e = ':' then
                  (parseVal g (skipWs r2)).bind fun qv =>
                    (parseMembers g (skipWs qv.2)).map fun p =>
                      (.obj (buildDict ((pk.1, qv.1) :: p.1)), p.2)
                else none
          else none
      else parseNum (c :: rest)) := rfl

theorem parseElems_cons_eq (g : Nat) (c : Char) (rest : List Char) :
    parseElems (g + 1) (c :: rest) =
      (if c = ']' then some ([], rest)
      else if c = ',' then
        (parseVal g (skipWs rest)).bind fun q =>
          (parseElems g (skipWs q.2)).map fun p => (q.1 :: p.1, p.2)
      else none) := rfl

theorem parseMembers_cons_eq (g : Nat) (c : Char) (rest : List Char) :
    parseMembers (g + 1) (c :: rest) =
      (if c = '}' then some ([], rest)
      else if c = ',' then
        match skipWs rest with
        | [] => none
        | d :: kt =>
          if d = '"' then
            (parseStrBody (g + 1) kt).bind fun pk =>
              match skipWs pk.2 with
              | [] => none
              | e :: r2 =>
                if e = ':' then
                  (parseVal g (skipWs r2)).bind fun qv =>
                    (parseMembers g (skipWs qv.2)).map fun p =>
                      ((pk.1, qv.1) :: p.1, p.2)
                else none
          else none
      else none) := rfl

set_option maxHeartbeats 1000000 in
/-- Every value any of the three parsers can return satisfies `nodupKeys`:
the object parser funnels its member pairs through `buildDict` (Python dict
construction), which collapses duplicate keys. -/
theorem parse_nodup : ∀ f : Nat,
    (∀ s v r, parseVal f s = some (v, r) → nodupKeys v = true) ∧
    (∀ s l r, parseElems f s = some (l, r) → ∀ x ∈ l, nodupKeys x = true) ∧
    (∀ s l r, parseMembers f s = some (l, r) → ∀ kv ∈ l, nodupKeys kv.2 = true) := by
  intro f
  induction f using Nat.strong_induction_on with
  | _ f ih =>
    cases f with
    | zero =>
      refine ⟨?_, ?_, ?_⟩
      · intro s v r h; cases h
      · intro s l r h; cases h
      · intro s l r h; cases h
    | succ g =>
      obtain ⟨ihV, ihE, ihM⟩ := ih g (by omega)
      refine ⟨?_, ?_, ?_⟩
      · intro s v r h
        cases s with
        | nil => cases h
        | cons c rest =>
          rw [parseVal_cons_eq] at h
          by_cases h1 : c = 'n'
          · rw [if_pos h1] at h
            split at h
            all_goals first
              | (obtain ⟨rfl, -⟩ := Prod.mk.injEq _ _ _ _ ▸ Option.some.inj h; rfl)
              | cases h
          · rw [if_neg h1] at h
            by_cases h2 : c = 't'
            · rw [if_pos h2] at h
              split at h
              all_goals first
                | (obtain ⟨rfl, -⟩ := Prod.mk.injEq _ _ _ _ ▸ Option.some.inj h; rfl)
                | cases h
            · rw [if_neg h2] at h
              by_cases h3 : c = 'f'
              · rw [if_pos h3] at h
                split at h
                all_goals first
                  | (obtain ⟨rfl, -⟩ := Prod.mk.injEq _ _ _ _ ▸ Option.some.inj h; rfl)
                  | cases h
              · rw [if_neg h3] at h
                by_cases h4 : c = '"'
                · rw [if_pos h4] at h
                  obtain ⟨p, -, heq⟩ := Option.map_eq_some'.mp h
                  obtain ⟨rfl, -⟩ := Prod.mk.injEq _ _ _ _ ▸ heq.symm
                  rfl
                · rw [if_neg h4] at h
                  by_cases h5 : c = '['
                  · rw [if_pos h5] at h
                    split at h
                    · cases h
                    · rename_i d r2 hsk
                      by_cases hd : d = ']'
                      · rw [if_pos hd] at h
                        obtain ⟨rfl, -⟩ := Prod.mk.injEq _ _ _ _ ▸ Option.some.inj h
                        rfl
                      · rw [if_neg hd] at h
                        obtain ⟨q, hq, h2⟩ := Option.bind_eq_some.mp h
                        obtain ⟨p, hp, heq⟩ := Option.map_eq_some'.mp h2
                        obtain ⟨rfl, -⟩ := Prod.mk.injEq _ _ _ _ ▸ heq.symm
                        show nodupKeysList (q.1 :: p.1) = true
                        refine nodupKeysList_of_mem ?_
                        intro x hx
                        rcases List.mem_cons.mp hx with rfl | hx2
                        · exact ihV _ _ _ hq
                        · exact ihE _ _ _ hp x hx2
                  · rw [if_neg h5] at h
                    by_cases h6 : c = '{'
                    · rw [if_pos h6] at h
                      split at h
                      · cases h
                      · rename_i d r2 hsk
                        by_cases hd1 : d = '}'
                        · rw [if_pos hd1] at h
                          obtain ⟨rfl, -⟩ := Prod.mk.injEq _ _ _ _ ▸ Option.some.inj h
                          rfl
                        · rw [if_neg hd1] at h
                          by_cases hd2 : d = '"'
                          · rw [if_pos hd2] at h
                            obtain ⟨pk, hpk, h2⟩ := Option.bind_eq_some.mp h
                            split at h2
                            · cases h2
                            · rename_i e r3 hsk2
                              by_cases he : e = ':'
                              · rw [if_pos he] at h2
                                obtain ⟨qv, hqv, h3⟩ := Option.bind_eq_some.mp h2
                                obtain ⟨p, hp, heq⟩ := Option.map_eq_some'.mp h3
                                obtain ⟨rfl, -⟩ := Prod.mk.injEq _ _ _ _ ▸ heq.symm
                                show (distinctKeys ((buildDict ((pk.1, qv.1) :: p.1)).map
                                    Prod.fst) &&
                                  nodupKeysKVs (buildDict ((pk.1, qv.1) :: p.1))) = true
                                rw [buildDict_distinct, Bool.true_and]
                                refine nodupKeysKVs_of_mem ?_
                                intro kv hkv
                                rcases List.mem_cons.mp (mem_buildDict hkv) with rfl | hkv2
                                · exact ihV _ _ _ hqv
                                · exact ihM _ _ _ hp kv hkv2
                              · rw [if_neg he] at h2
                                cases h2
                          · rw [if_neg hd2] at h
                            cases h
                    · rw [if_neg h6] at h
                      obtain ⟨n, rfl⟩ := parseNum_shape h
                      rfl
      · intro s l r h
        cases s with
        | nil => cases h
        | cons c rest =>
          rw [parseElems_cons_eq] at h
          by_cases h1 : c = ']'
          · rw [if_pos h1] at h
            obtain ⟨rfl, -⟩ := Prod.mk.injEq _ _ _ _ ▸ Option.some.inj h
            intro x hx
            cases hx
          · rw [if_neg h1] at h
            by_cases h2 : c = ','
            · rw [if_pos h2] at h
              obtain ⟨q, hq, h3⟩ := Option.bind_eq_some.mp h
              obtain ⟨p, hp, heq⟩ := Option.map_eq_some'.mp h3
              obtain ⟨rfl, -⟩ := Prod.mk.injEq _ _ _ _ ▸ heq.symm
              intro x hx
              rcases List.mem_cons.mp hx with rfl | hx2
              · exact ihV _ _ _ hq
              · exact ihE _ _ _ hp x hx2
            · rw [if_neg h2] at h
              cases h
      · intro s l r h
        cases s with
        | nil => cases h
        | cons c rest =>
          rw [parseMembers_cons_eq] at h
          by_cases h1 : c = '}'
          · rw [if_pos h1] at h
            obtain ⟨rfl, -⟩ := Prod.mk.injEq _ _ _ _ ▸ Option.some.inj h
            intro kv hkv
            cases hkv
          · rw [if_neg h1] at h
            by_cases h2 : c = ','
            · rw [if_pos h2] at h
              split at h
              · cases h
              · rename_i d kt hsk
                by_cases hd : d = '"'
                · rw [if_pos hd] at h
                  obtain ⟨pk, hpk, h3⟩ := Option.bind_eq_some.mp h
                  split at h3
                  · cases h3
                  · rename_i e r3 hsk2
                    by_cases he : e = ':'
                    · rw [if_pos he] at h3
                      obtain ⟨qv, hqv, h4⟩ := Option.bind_eq_some.mp h3
                      obtain ⟨p, hp, heq⟩ := Option.map_eq_some'.mp h4
                      obtain ⟨rfl, -⟩ := Prod.mk.injEq _ _ _ _ ▸ heq.symm
                      intro kv hkv
                      rcases List.mem_cons.mp hkv with rfl | hkv2
                      · exact ihV _ _ _ hqv
                      · exact ihM _ _ _ hp kv hkv2
                    · rw [if_neg he] at h3
                      cases h3
                · rw [if_neg hd] at h
                  cases h
            · rw [if_neg h2] at h
              cases h

/-- Every value produced by the deserializer (`json.loads`) has
pairwise-distinct keys in every object, at any depth. -/
theorem loads_nodup {s : List Char} {e : Json} (h : loads s = some e) :
    nodupKeys e = true := by
  rw [loads] at h
  split at h
  · rename_i p hp
    split_ifs at h
    · obtain rfl := Option.some.inj h
      exact (parse_nodup _).1 _ _ _ hp
  · cases h

/-! ## Remaining helper lemmas for the claims -/

theorem chunksOf_mem_mem {B : Nat} : ∀ n, ∀ l : List Json, l.length ≤ n →
    ∀ c ∈ chunksOf B l, ∀ x ∈ c, x ∈ l := by
  intro n
  induction n with
  | zero =>
    intro l h c hc
    have hl : l = [] := List.eq_nil_of_length_eq_zero (by omega)
    subst hl
    rw [chunksOf_eq, if_neg (by rw [List.length_nil]; omega)] at hc
    cases hc
  | succ k ih =>
    intro l h c hc x hx
    rw [chunksOf_eq] at hc
    by_cases hcond : 1 ≤ B ∧ B ≤ l.length
    · rw [if_pos hcond] at hc
      rcases List.mem_cons.mp hc with rfl | hc2
      · exact List.take_subset _ _ hx
      · exact List.drop_subset _ _
          (ih (l.drop B) (by rw [List.length_drop]; omega) c hc2 x hx)
    · rw [if_neg hcond] at hc
      cases hc

theorem take_drop_take {l : List Json} {M k B : Nat} (h : k + B ≤ M) :
    ((l.take M).drop k).take B = (l.drop k).take B := by
  rw [List.drop_take]
  rw [List.take_take]
  congr 1
  omega

/-- The lines of a flushed body: splitting `json_data batch` on `'\n'`
recovers exactly one serialized JSON value per event, and the body holds
exactly `batch.length - 1` newline characters. -/
theorem json_data_lines {events : List Json} (h : events ≠ []) :
    splitNl (json_data events) = events.map dumps ∧
    (json_data events).count '\n' = events.length - 1 := by
  have hne : events.map dumps ≠ [] := by
    intro hnil
    exact h (List.map_eq_nil.mp hnil)
  have hnl : ∀ p ∈ events.map dumps, ∀ d ∈ p, d ≠ '\n' := by
    intro p hp d hd
    obtain ⟨x, _, hxe⟩ := List.mem_map.mp hp
    rw [← hxe] at hd
    exact dumps_no_nl x d hd
  constructor
  · exact splitNl_joinNl _ hne hnl
  · rw [show json_data events = joinNl (events.map dumps) from rfl,
      count_nl_joinNl _ hne hnl, List.length_map]

/-- With any threshold `B ≤ 1` every message flushes its own singleton
batch immediately: the run succeeds, the batch is empty after every
message, and the uploads hold one event each, in order. -/
theorem run_singles (B : Int) (hB : B ≤ 1) : ∀ (ms : List Msg)
    (ups : List Upload), (∀ m ∈ ms, m.putOk = true) →
    ∃ s2 : ConsumerState, run B ⟨[], ups⟩ ms = Except.ok s2 ∧
      s2.batch = [] ∧
      s2.uploads.map Upload.events =
        ups.map Upload.events ++ ms.map (fun m => [m.event]) := by
  intro ms
  induction ms with
  | nil =>
    intro ups _
    exact ⟨⟨[], ups⟩, rfl, rfl, by rw [List.map_nil, List.append_nil]⟩
  | cons m ms ih =>
    intro ups hok
    have hmok : m.putOk = true := hok m (List.mem_cons_self _ _)
    have hc : B ≤ (((([] : List Json) ++ [m.event]).length : Nat) : Int) := by
      rw [List.nil_append, List.length_singleton]
      exact le_trans hB (by decide)
    have hstep : step B ⟨[], ups⟩ m =
        Except.ok ⟨[], ups ++ [mkUpload m.now ([] ++ [m.event])]⟩ := by
      simp only [step]
      rw [if_pos hc, if_pos hmok]
    obtain ⟨s2, hrun2, hb2, hu2⟩ :=
      ih (ups ++ [mkUpload m.now ([] ++ [m.event])])
        (fun x hx => hok x (List.mem_cons_of_mem _ hx))
    have hr : run B ⟨[], ups⟩ (m :: ms) =
        run B ⟨[], ups ++ [mkUpload m.now ([] ++ [m.event])]⟩ ms := by
      rw [run, hstep]
    refine ⟨s2, by rw [hr]; exact hrun2, hb2, ?_⟩
    rw [hu2, List.map_append]
    show ups.map Upload.events ++ [[m.event]] ++ ms.map (fun m => [m.event]) =
      ups.map Upload.events ++ ([m.event] :: ms.map (fun m => [m.event]))
    rw [List.append_assoc]
    rfl

/-! ## Concrete inputs used by the witnesses -/

def exDT : DT := ⟨2024, 3, 5, 7, 8, 9⟩

def exMsg (n : Int) : Msg := ⟨Json.num n, exDT, true⟩

def exMsgs3 : List Msg := [exMsg 1, exMsg 2, exMsg 3]

def exMsgs1 : List Msg := [exMsg 1]

def exMsgBad : Msg := ⟨Json.num 1, exDT, false⟩

def env1 : String → Option String :=
  fun v => if v = "MINIO_BUCKET" then none else some "7"

def env2 : String → Option String := fun _ => some "7"

def envBad : String → Option String :=
  fun v => if v = "BATCH_SIZE" then some "" else none

/-! ## The claims -/

/-- **C1.**  With `BATCH_SIZE = B ≥ 1` and `N` consumed events (all store
writes succeeding), processing the first `(N/B)*B` events produces exactly
`N/B` uploads, the `i`-th holding exactly the `i`-th run of `B` events in
arrival order, and leaves the batch empty; processing all `N` events
produces no further upload and leaves exactly the last `N % B` events
buffered. -/
theorem claim_C1 (B : Nat) (hB : 1 ≤ B) (ms : List Msg)
    (hok : ∀ m ∈ ms, m.putOk = true) :
    (∃ s1 : ConsumerState,
      run (B : Int) startState (ms.take (ms.length / B * B)) = Except.ok s1 ∧
      s1.uploads.length = ms.length / B ∧
      (∀ i, i < ms.length / B → (s1.uploads.map Upload.events).get? i =
        some (((ms.map Msg.event).drop (i * B)).take B)) ∧
      (∀ u ∈ s1.uploads, u.events.length = B) ∧
      s1.batch = []) ∧
    (∃ s2 : ConsumerState,
      run (B : Int) startState ms = Except.ok s2 ∧
      s2.batch = (ms.map Msg.event).drop (ms.length / B * B) ∧
      s2.batch.length = ms.length % B ∧
      s2.uploads.length = ms.length / B) := by
  have hNB : ms.length / B * B ≤ ms.length := Nat.div_mul_le_self _ _
  constructor
  · obtain ⟨s1, hrun, hbatch, hups, hinv⟩ :=
      run_ok B hB (ms.take (ms.length / B * B)) [] []
        (by rw [List.length_nil]; omega)
        (fun m hm => hok m (List.take_subset _ _ hm))
    have hmt : (ms.take (ms.length / B * B)).map Msg.event =
        (ms.map Msg.event).take (ms.length / B * B) := List.map_take _ _ _
    have hlen : ((ms.map Msg.event).take (ms.length / B * B)).length =
        ms.length / B * B := by
      rw [List.length_take, List.length_map]
      omega
    have hdiv : (ms.length / B * B) / B = ms.length / B :=
      Nat.mul_div_cancel _ (by omega)
    refine ⟨s1, hrun, ?_, ?_, ?_, ?_⟩
    · have h1 : s1.uploads.length = (s1.uploads.map Upload.events).length :=
        (List.length_map _ _).symm
      rw [h1, hups, List.map_nil, List.nil_append, List.nil_append, hmt,
        chunksOf_length hB _ _ le_rfl, hlen, hdiv]
    · intro i hi
      rw [hups, List.map_nil, List.nil_append, List.nil_append, hmt,
        chunksOf_get hB _ _ le_rfl i (by rw [hlen, hdiv]; exact hi),
        take_drop_take]
      have h1 : i + 1 ≤ ms.length / B := hi
      have h2 : (i + 1) * B ≤ ms.length / B * B := Nat.mul_le_mul_right _ h1
      rw [Nat.succ_mul] at h2
      omega
    · intro u hu
      rcases hinv u hu with hin | hnew
      · cases hin
      · exact hnew.2.2.1
    · rw [hbatch, List.nil_append, hmt, remOf_eq_drop hB _ _ le_rfl, hlen, hdiv]
      have : ((ms.map Msg.event).take (ms.length / B * B)).length ≤
          ms.length / B * B := by rw [hlen]
      exact List.drop_eq_nil_of_le this
  · obtain ⟨s2, hrun, hbatch, hups, hinv⟩ :=
      run_ok B hB ms [] [] (by rw [List.length_nil]; omega) hok
    have hlen : (ms.map Msg.event).length = ms.length := List.length_map _ _
    refine ⟨s2, hrun, ?_, ?_, ?_⟩
    · rw [hbatch, List.nil_append, remOf_eq_drop hB _ _ le_rfl, hlen]
    · rw [hbatch, List.nil_append, remOf_length hB, hlen]
    · have h1 : s2.uploads.length = (s2.uploads.map Upload.events).length :=
        (List.length_map _ _).symm
      rw [h1, hups, List.map_nil, List.nil_append, List.nil_append,
        chunksOf_length hB _ _ le_rfl, hlen]

theorem claim_C1_witness :
    (1 ≤ 2 ∧ ∀ m ∈ exMsgs3, m.putOk = true) ∧
    ((∃ s1 : ConsumerState,
      run ((2 : Nat) : Int) startState
        (exMsgs3.take (exMsgs3.length / 2 * 2)) = Except.ok s1 ∧
      s1.uploads.length = exMsgs3.length / 2 ∧
      (∀ i, i < exMsgs3.length / 2 → (s1.uploads.map Upload.events).get? i =
        some (((exMsgs3.map Msg.event).drop (i * 2)).take 2)) ∧
      (∀ u ∈ s1.uploads, u.events.length = 2) ∧
      s1.batch = []) ∧
    (∃ s2 : ConsumerState,
      run ((2 : Nat) : Int) startState exMsgs3 = Except.ok s2 ∧
      s2.batch = (exMsgs3.map Msg.event).drop (exMsgs3.length / 2 * 2) ∧
      s2.batch.length = exMsgs3.length % 2 ∧
      s2.uploads.length = exMsgs3.length / 2)) :=
  ⟨⟨by decide, by decide⟩, claim_C1 2 (by decide) exMsgs3 (by decide)⟩

/-- Claim C2: every event appended and later flushed round-trips: for each
upload, the `i`-th line of the body is the serialization of the `i`-th
event of its batch, and deserializing that line gives back a value equal
to the event.  (Every consumed event came out of the deserializer, which
is the provenance hypothesis `hsrc`.) -/
theorem claim_C2 (B : Nat) (hB : 1 ≤ B) (ms : List Msg)
    (hok : ∀ m ∈ ms, m.putOk = true)
    (hsrc : ∀ m ∈ ms, ∃ raw : List Char, loads raw = some m.event) :
    ∃ s2 : ConsumerState, run (B : Int) startState ms = Except.ok s2 ∧
      ∀ u ∈ s2.uploads, ∀ i : Nat, ∀ hi : i < u.events.length,
        (splitNl u.body).get? i = some (dumps (u.events.get ⟨i, hi⟩)) ∧
        loads (dumps (u.events.get ⟨i, hi⟩)) = some (u.events.get ⟨i, hi⟩) := by
  obtain ⟨s2, hrun, hbatch, hups, hinv⟩ :=
    run_ok B hB ms [] [] (by rw [List.length_nil]; omega) hok
  refine ⟨s2, hrun, ?_⟩
  intro u hu i hi
  rcases hinv u hu with hin | ⟨hbody, _, hlenB, _⟩
  · cases hin
  · have h1 : u.events ∈ List.map Upload.events s2.uploads :=
      List.mem_map_of_mem _ hu
    rw [hups, List.map_nil, List.nil_append, List.nil_append] at h1
    have hnodupEach : ∀ x ∈ u.events, nodupKeys x = true := by
      intro x hx
      have hx2 : x ∈ List.map Msg.event ms :=
        chunksOf_mem_mem _ _ le_rfl u.events h1 x hx
      obtain ⟨m, hm, hme⟩ := List.mem_map.mp hx2
      obtain ⟨raw, hraw⟩ := hsrc m hm
      have hnd := loads_nodup hraw
      rw [hme] at hnd
      exact hnd
    have hne : u.events ≠ [] := by
      intro hnil
      rw [hnil, List.length_nil] at hlenB
      omega
    have hlines := (json_data_lines hne).1
    rw [hbody] at *
    constructor
    · rw [hlines, List.get?_map, List.get?_eq_get hi, Option.map_some']
    · exact loads_dumps (hnodupEach _ (List.get_mem _ _ _))

theorem claim_C2_witness :
    (1 ≤ 1 ∧ (∀ m ∈ exMsgs1, m.putOk = true) ∧
      (∀ m ∈ exMsgs1, ∃ raw : List Char, loads raw = some m.event)) ∧
    (∃ s2 : ConsumerState,
      run ((1 : Nat) : Int) startState exMsgs1 = Except.ok s2 ∧
      ∀ u ∈ s2.uploads, ∀ i : Nat, ∀ hi : i < u.events.length,
        (splitNl u.body).get? i = some (dumps (u.events.get ⟨i, hi⟩)) ∧
        loads (dumps (u.events.get ⟨i, hi⟩)) = some (u.events.get ⟨i, hi⟩)) := by
  have hsrc : ∀ m ∈ exMsgs1, ∃ raw : List Char, loads raw = some m.event := by
    intro m hm
    simp only [exMsgs1] at hm
    rw [List.mem_singleton] at hm
    subst hm
    exact ⟨['1'], rfl⟩
  exact ⟨⟨by decide, by decide, hsrc⟩,
    claim_C2 1 (by decide) exMsgs1 (by decide) hsrc⟩

/-- Claim C3: a triggered flush with a successful write uploads under the
key built by `file_path` from the wall-clock value captured at that very
iteration; `file_path` is bit-exactly the spec format
`bronze/date=YYYY-MM-DD/hour=HH/spotify_events_YYYY-MM-DDTHH-MM-SS.json`;
and for any valid UTC time each component is the zero-padded decimal of
the corresponding UTC field (so the date/hour partition components equal
the UTC calendar date and hour of the flush instant). -/
theorem claim_C3 :
    (∀ (B : Int) (s : ConsumerState) (m : Msg),
      B ≤ (((s.batch ++ [m.event]).length : Nat) : Int) → m.putOk = true →
      step B s m =
        Except.ok ⟨[], s.uploads ++ [mkUpload m.now (s.batch ++ [m.event])]⟩) ∧
    (∀ (t : DT) (batch : List Json), (mkUpload t batch).key = file_path t) ∧
    (∀ t : DT, file_path t = specObjectKey t) ∧
    (∀ t : DT, t.Valid →
      ((zfill4 t.year).length = 4 ∧ digitsVal (zfill4 t.year) = t.year) ∧
      ((zfill2 t.month).length = 2 ∧ digitsVal (zfill2 t.month) = t.month) ∧
      ((zfill2 t.day).length = 2 ∧ digitsVal (zfill2 t.day) = t.day) ∧
      ((zfill2 t.hour).length = 2 ∧ digitsVal (zfill2 t.hour) = t.hour) ∧
      ((zfill2 t.minute).length = 2 ∧ digitsVal (zfill2 t.minute) = t.minute) ∧
      ((zfill2 t.second).length = 2 ∧ digitsVal (zfill2 t.second) = t.second)) := by
  refine ⟨?_, fun t batch => rfl, file_path_eq_spec, ?_⟩
  · intro B s m hcond hput
    simp only [step]
    rw [if_pos hcond, if_pos hput]
  · intro t hv
    obtain ⟨h1, h2, h3, h4, h5, h6, h7, h8, h9⟩ := hv
    exact ⟨⟨zfill4_length (by omega), zfill4_val _⟩,
      ⟨zfill2_length (by omega), zfill2_val _⟩,
      ⟨zfill2_length (by omega), zfill2_val _⟩,
      ⟨zfill2_length (by omega), zfill2_val _⟩,
      ⟨zfill2_length (by omega), zfill2_val _⟩,
      ⟨zfill2_length (by omega), zfill2_val _⟩⟩

theorem claim_C3_witness :
    ((1 : Int) ≤ (((startState.batch ++ [(exMsg 1).event]).length : Nat) : Int) ∧
      (exMsg 1).putOk = true ∧ exDT.Valid) ∧
    step 1 startState (exMsg 1) = Except.ok ⟨[], startState.uploads ++
      [mkUpload (exMsg 1).now (startState.batch ++ [(exMsg 1).event])]⟩ ∧
    (mkUpload exDT []).key = file_path exDT ∧
    file_path exDT = specObjectKey exDT ∧
    (((zfill4 exDT.year).length = 4 ∧ digitsVal (zfill4 exDT.year) = exDT.year) ∧
      ((zfill2 exDT.month).length = 2 ∧ digitsVal (zfill2 exDT.month) = exDT.month) ∧
      ((zfill2 exDT.day).length = 2 ∧ digitsVal (zfill2 exDT.day) = exDT.day) ∧
      ((zfill2 exDT.hour).length = 2 ∧ digitsVal (zfill2 exDT.hour) = exDT.hour) ∧
      ((zfill2 exDT.minute).length = 2 ∧ digitsVal (zfill2 exDT.minute) = exDT.minute) ∧
      ((zfill2 exDT.second).length = 2 ∧ digitsVal (zfill2 exDT.second) = exDT.second)) := by
  have hv : exDT.Valid := by
    refine ⟨?_, ?_, ?_, ?_, ?_, ?_, ?_, ?_, ?_⟩ <;> decide
  exact ⟨⟨by decide, rfl, hv⟩,
    claim_C3.1 1 startState (exMsg 1) (by decide) rfl,
    claim_C3.2.1 exDT [],
    claim_C3.2.2.1 exDT,
    claim_C3.2.2.2 exDT hv⟩

/-- Claim C4: the body of every upload of an error-free run is exactly the
newline-join of the individual serializations of its `B` events — one JSON
value per line in batch order, single newline separators, no trailing
separator, no wrapping array — and it contains exactly `B - 1` newline
characters (all outside the encoded values, which are newline-free). -/
theorem claim_C4 (B : Nat) (hB : 1 ≤ B) (ms : List Msg)
    (hok : ∀ m ∈ ms, m.putOk = true) :
    ∃ s2 : ConsumerState, run (B : Int) startState ms = Except.ok s2 ∧
      ∀ u ∈ s2.uploads,
        u.body = joinNl (u.events.map dumps) ∧
        splitNl u.body = u.events.map dumps ∧
        u.events.length = B ∧
        u.body.count '\n' = B - 1 := by
  obtain ⟨s2, hrun, _, _, hinv⟩ :=
    run_ok B hB ms [] [] (by rw [List.length_nil]; omega) hok
  refine ⟨s2, hrun, ?_⟩
  intro u hu
  rcases hinv u hu with hin | ⟨hbody, _, hlenB, _⟩
  · cases hin
  · have hne : u.events ≠ [] := by
      intro hnil
      rw [hnil, List.length_nil] at hlenB
      omega
    obtain ⟨hsplit, hcount⟩ := json_data_lines hne
    refine ⟨hbody, ?_, hlenB, ?_⟩
    · rw [hbody]; exact hsplit
    · rw [hbody, hcount, hlenB]

theorem claim_C4_witness :
    (1 ≤ 1 ∧ ∀ m ∈ exMsgs1, m.putOk = true) ∧
    (∃ s2 : ConsumerState,
      run ((1 : Nat) : Int) startState exMsgs1 = Except.ok s2 ∧
      ∀ u ∈ s2.uploads,
        u.body = joinNl (u.events.map dumps) ∧
        splitNl u.body = u.events.map dumps ∧
        u.events.length = 1 ∧
        u.body.count '\n' = 1 - 1) :=
  ⟨⟨by decide, by decide⟩, claim_C4 1 (by decide) exMsgs1 (by decide)⟩

/-- Claim C5: whenever the `BATCH_SIZE` parse does not itself fail and at
least one of the seven required variables is absent, startup issues no
call to the store or the topic client (empty action trace) and raises the
single aggregated error listing every missing key; every absent required
variable appears in the list, and with all seven absent the message names
all seven. -/
theorem claim_C5 :
    (∀ (env : String → Option String) (headOk : Bool),
      (env "BATCH_SIZE" = none ∨
        ∃ raw b, env "BATCH_SIZE" = some raw ∧ pyInt raw = some b) →
      missing_vars env ≠ [] →
      startup env headOk = ([], Except.error (StartupError.missingEnv
        ("Missing required environment variables: " ++
          String.intercalate ", " (missing_vars env)))) ∧
      ∀ v ∈ requiredVarNames, env v = none → v ∈ missing_vars env) ∧
    (∀ headOk : Bool, startup (fun _ => none) headOk =
      ([], Except.error (StartupError.missingEnv
        "Missing required environment variables: MINIO_BUCKET, MINIO_ENDPOINT, MINIO_ACCESS_KEY, MINIO_SECRET_KEY, KAFKA_TOPIC, KAFKA_BOOTSTRAP_SERVER, KAFKA_GROUP_ID"))) := by
  constructor
  · intro env headOk hbs hmv
    have hie : ¬ ((missing_vars env).isEmpty = true) := by
      intro hcontra
      exact hmv (List.isEmpty_iff.mp hcontra)
    have hval : ∀ b : Int, startupValidate env headOk b =
        ([], Except.error (StartupError.missingEnv
          ("Missing required environment variables: " ++
            String.intercalate ", " (missing_vars env)))) := by
      intro b
      simp only [startupValidate]
      rw [if_neg hie]
    constructor
    · rcases hbs with hnone | ⟨raw, b, hraw, hb⟩
      · simp only [startup, hnone]
        exact hval 10
      · simp only [startup, hraw, hb]
        exact hval b
    · intro v hv hnone
      exact List.mem_filter.mpr ⟨hv, by rw [hnone]; rfl⟩
  · intro headOk
    rfl

theorem claim_C5_witness :
    ((env1 "BATCH_SIZE" = none ∨
        ∃ raw b, env1 "BATCH_SIZE" = some raw ∧ pyInt raw = some b) ∧
      missing_vars env1 ≠ []) ∧
    (startup env1 true = ([], Except.error (StartupError.missingEnv
        ("Missing required environment variables: " ++
          String.intercalate ", " (missing_vars env1)))) ∧
      ∀ v ∈ requiredVarNames, env1 v = none → v ∈ missing_vars env1) ∧
    startup (fun _ => none) true = ([], Except.error (StartupError.missingEnv
      "Missing required environment variables: MINIO_BUCKET, MINIO_ENDPOINT, MINIO_ACCESS_KEY, MINIO_SECRET_KEY, KAFKA_TOPIC, KAFKA_BOOTSTRAP_SERVER, KAFKA_GROUP_ID")) :=
  ⟨⟨Or.inr ⟨"7", 7, rfl, rfl⟩, by decide⟩,
    claim_C5.1 env1 true (Or.inr ⟨"7", 7, rfl, rfl⟩) (by decide),
    claim_C5.2 true⟩

/-- Claim C6: with a parsable (or absent) `BATCH_SIZE` and no missing
required variable, startup issues exactly one bucket-existence check; if
the check succeeds no creation call is made, and if it raises (any
exception at all) exactly one creation call follows; either way the trace
ends with the consumer construction and startup succeeds. -/
theorem claim_C6 (env : String → Option String) (headOk : Bool)
    (hbs : env "BATCH_SIZE" = none ∨
      ∃ raw b, env "BATCH_SIZE" = some raw ∧ pyInt raw = some b)
    (hm : missing_vars env = []) :
    ∃ b : Int, startup env headOk =
      ((if headOk then [Action.headBucket, Action.createConsumer]
        else [Action.headBucket, Action.createBucket, Action.createConsumer]),
        Except.ok b) ∧
      (startup env headOk).1.count Action.headBucket = 1 ∧
      (startup env headOk).1.count Action.createBucket =
        (if headOk then 0 else 1) ∧
      (startup env headOk).1.getLast? = some Action.createConsumer := by
  have hie : (missing_vars env).isEmpty = true := by
    rw [hm]
    rfl
  obtain ⟨bval, hstart⟩ : ∃ b : Int, startup env headOk =
      ([Action.headBucket] ++ (if headOk then [] else [Action.createBucket]) ++
        [Action.createConsumer], Except.ok b) := by
    rcases hbs with hnone | ⟨raw, b, hraw, hb⟩
    · refine ⟨10, ?_⟩
      simp only [startup, hnone, startupValidate]
      rw [if_pos hie]
    · refine ⟨b, ?_⟩
      simp only [startup, hraw, hb, startupValidate]
      rw [if_pos hie]
  refine ⟨bval, ?_, ?_, ?_, ?_⟩ <;> rw [hstart] <;> cases headOk <;> rfl

theorem claim_C6_witness :
    ((env2 "BATCH_SIZE" = none ∨
        ∃ raw b, env2 "BATCH_SIZE" = some raw ∧ pyInt raw = some b) ∧
      missing_vars env2 = []) ∧
    (∃ b : Int, startup env2 false =
      ((if false then [Action.headBucket, Action.createConsumer]
        else [Action.headBucket, Action.createBucket, Action.createConsumer]),
        Except.ok b) ∧
      (startup env2 false).1.count Action.headBucket = 1 ∧
      (startup env2 false).1.count Action.createBucket =
        (if false then 0 else 1) ∧
      (startup env2 false).1.getLast? = some Action.createConsumer) :=
  ⟨⟨Or.inr ⟨"7", 7, rfl, rfl⟩, by decide⟩,
    claim_C6 env2 false (Or.inr ⟨"7", 7, rfl, rfl⟩) (by decide)⟩

/-- Claim C7: each loop iteration either merely appends the event to the
batch, or flushes (successful upload appended, batch cleared), or — when
the store write fails — terminates with the error, the batch at the
failure point holding exactly the events accumulated since the last
successful flush (the remainder of the preceding stream) plus the one
just appended, not cleared. -/
theorem claim_C7 :
    (∀ (B : Int) (s : ConsumerState) (m : Msg),
      step B s m = Except.ok ⟨s.batch ++ [m.event], s.uploads⟩ ∨
      step B s m =
        Except.ok ⟨[], s.uploads ++ [mkUpload m.now (s.batch ++ [m.event])]⟩ ∨
      (m.putOk = false ∧
        step B s m = Except.error ⟨s.batch ++ [m.event], s.uploads⟩)) ∧
    (∀ (B : Nat), 1 ≤ B → ∀ (pre : List Msg) (m : Msg) (tail : List Msg),
      (∀ x ∈ pre, x.putOk = true) → m.putOk = false →
      B ≤ (remOf B (pre.map Msg.event)).length + 1 →
      ∃ ups : List Upload,
        run (B : Int) startState (pre ++ m :: tail) =
          Except.error ⟨remOf B (pre.map Msg.event) ++ [m.event], ups⟩) := by
  constructor
  · intro B s m
    by_cases hc : B ≤ (((s.batch ++ [m.event]).length : Nat) : Int)
    · cases hput : m.putOk with
      | true =>
        right; left
        simp only [step]
        rw [if_pos hc, if_pos hput]
      | false =>
        right; right
        refine ⟨rfl, ?_⟩
        simp only [step]
        rw [if_pos hc, hput, if_neg (by decide)]
    · left
      simp only [step]
      rw [if_neg hc]
  · intro B hB pre m tail hok hput hflush
    obtain ⟨s1, hrun1, hbatch, _, _⟩ :=
      run_ok B hB pre [] [] (by rw [List.length_nil]; omega) hok
    rw [List.nil_append] at hbatch
    have hcond : (B : Int) ≤ (((s1.batch ++ [m.event]).length : Nat) : Int) := by
      rw [hbatch, List.length_append, List.length_singleton]
      exact_mod_cast hflush
    have hstep : step (B : Int) s1 m =
        Except.error ⟨s1.batch ++ [m.event], s1.uploads⟩ := by
      simp only [step]
      rw [if_pos hcond, hput, if_neg (by decide)]
    have hrun1s : run (B : Int) startState pre = Except.ok s1 := hrun1
    refine ⟨s1.uploads, ?_⟩
    rw [run_append, hrun1s]
    show run (B : Int) s1 (m :: tail) = _
    rw [run, hstep, hbatch]

theorem claim_C7_witness :
    ((∀ x ∈ ([] : List Msg), x.putOk = true) ∧ exMsgBad.putOk = false ∧
      1 ≤ (remOf 1 (([] : List Msg).map Msg.event)).length + 1) ∧
    (step 1 startState exMsgBad =
        Except.ok ⟨startState.batch ++ [exMsgBad.event], startState.uploads⟩ ∨
      step 1 startState exMsgBad = Except.ok ⟨[], startState.uploads ++
        [mkUpload exMsgBad.now (startState.batch ++ [exMsgBad.event])]⟩ ∨
      (exMsgBad.putOk = false ∧ step 1 startState exMsgBad =
        Except.error ⟨startState.batch ++ [exMsgBad.event], startState.uploads⟩)) ∧
    (∃ ups : List Upload,
      run ((1 : Nat) : Int) startState ([] ++ exMsgBad :: []) =
        Except.error ⟨remOf 1 (([] : List Msg).map Msg.event) ++
          [exMsgBad.event], ups⟩) :=
  ⟨⟨fun x hx => (nomatch hx), rfl, by decide⟩,
    claim_C7.1 1 startState exMsgBad,
    claim_C7.2 1 (by decide) [] exMsgBad [] (fun x hx => nomatch hx) rfl
      (by decide)⟩

/-- Claim C8: with `BATCH_SIZE = B ≥ 1` and all writes succeeding, after
any prefix of the stream — i.e. at the start of every loop iteration — the
in-memory batch holds fewer than `B` events, so even after the append
inside the next iteration it holds at most `B` (the flush fires in the
same iteration that reaches the threshold). -/
theorem claim_C8 (B : Nat) (hB : 1 ≤ B) (ms : List Msg)
    (hok : ∀ m ∈ ms, m.putOk = true) (n : Nat) :
    ∃ s1 : ConsumerState,
      run (B : Int) startState (ms.take n) = Except.ok s1 ∧
      s1.batch.length < B ∧ s1.batch.length + 1 ≤ B := by
  obtain ⟨s1, hrun, hbatch, _, _⟩ := run_ok B hB (ms.take n) [] []
    (by rw [List.length_nil]; omega)
    (fun m hm => hok m (List.take_subset _ _ hm))
  rw [List.nil_append] at hbatch
  have hlt : s1.batch.length < B := by
    rw [hbatch]
    exact remOf_length_lt hB _
  exact ⟨s1, hrun, hlt, by omega⟩

theorem claim_C8_witness :
    (1 ≤ 2 ∧ ∀ m ∈ exMsgs3, m.putOk = true) ∧
    (∃ s1 : ConsumerState,
      run ((2 : Nat) : Int) startState (exMsgs3.take 1) = Except.ok s1 ∧
      s1.batch.length < 2 ∧ s1.batch.length + 1 ≤ 2) :=
  ⟨⟨by decide, by decide⟩, claim_C8 2 (by decide) exMsgs3 (by decide) 1⟩

/-- Claim C9: if `BATCH_SIZE` is set to a string that Python `int` rejects,
startup fails with the parse error from line 38 before the required-variable
validation runs: the action trace is empty and the error is the parse
failure, never the aggregated missing-variable report, whatever else the
environment is missing. -/
theorem claim_C9 (env : String → Option String) (headOk : Bool) (raw : String)
    (h1 : env "BATCH_SIZE" = some raw) (h2 : pyInt raw = none) :
    startup env headOk = ([], Except.error (StartupError.invalidBatchSize raw)) := by
  simp only [startup, h1, h2]

theorem claim_C9_witness :
    (envBad "BATCH_SIZE" = some "" ∧ pyInt "" = none) ∧
    startup envBad true = ([], Except.error (StartupError.invalidBatchSize "")) :=
  ⟨⟨rfl, rfl⟩, claim_C9 envBad true "" rfl rfl⟩

/-- Claim C10: for any threshold `B ≤ 1` — including the zero and negative
values the environment can supply — every consumed event triggers a flush
immediately after its append: the batch is empty after every prefix of the
stream and each uploaded object holds exactly one event, so the
`floor(N/B)` flush-count formula is replaced by one flush per event. -/
theorem claim_C10 (B : Int) (hB : B ≤ 1) (ms : List Msg)
    (hok : ∀ m ∈ ms, m.putOk = true) :
    ∃ s2 : ConsumerState, run B startState ms = Except.ok s2 ∧
      s2.batch = [] ∧
      s2.uploads.map Upload.events = ms.map (fun m => [m.event]) ∧
      (∀ n : Nat, ∃ s1 : ConsumerState,
        run B startState (ms.take n) = Except.ok s1 ∧ s1.batch = []) := by
  obtain ⟨s2, hrun, hb, hu⟩ := run_singles B hB ms [] hok
  refine ⟨s2, hrun, hb, ?_, ?_⟩
  · rw [hu, List.map_nil, List.nil_append]
  · intro n
    obtain ⟨s1, hrun1, hb1, _⟩ := run_singles B hB (ms.take n) []
      (fun m hm => hok m (List.take_subset _ _ hm))
    exact ⟨s1, hrun1, hb1⟩

theorem claim_C10_witness :
    ((-3 : Int) ≤ 1 ∧ ∀ m ∈ exMsgs3, m.putOk = true) ∧
    (∃ s2 : ConsumerState, run (-3) startState exMsgs3 = Except.ok s2 ∧
      s2.batch = [] ∧
      s2.uploads.map Upload.events = exMsgs3.map (fun m => [m.event]) ∧
      (∀ n : Nat, ∃ s1 : ConsumerState,
        run (-3) startState (exMsgs3.take n) = Except.ok s1 ∧ s1.batch = [])) :=
  ⟨⟨by decide, by decide⟩, claim_C10 (-3) (by decide) exMsgs3 (by decide)⟩

end Ingest
